import Mathlib

/-!
Verification of the tool2agent incremental validation engine.

This file gives a shallow embedding, in Lean 4, of the core of the
tool2agent repository: the dependency-graph utilities
(`detectRequiresCycles`, `toposortFields` in
`packages/ai/src/builder/graph.ts`) and the field-validation engine
(`validateToolSpec`, `buildContext`, `initializeStaticFields`,
`sortFields`, `processValidationResult`, `validateToolInput` in
`packages/ai/src/builder/validation.ts`), together with theorems
settling the behavioural claims about them.

Modelling conventions:
* JavaScript runtime values flowing through the engine are modelled by the
  inductive type `Value` (null, booleans, numbers, strings, arrays,
  objects).  Node's `util.isDeepStrictEqual` on such data is structural
  equality, which is exactly Lean's propositional equality on `Value`.
* A JavaScript object with string keys is modelled as an association list
  in insertion order (`List (String × α)`); a JS object never holds two
  bindings for one key, and all lists built here keep that invariant.
  Property assignment `o[k] = v` is `objSet` (update in place if the key
  exists, else append), property read `o[k]` is `objGet`.
* A JS record field may be bound to `undefined`; a working-value-set entry
  is therefore a `String × Option Value`, with `none` standing for a
  present-but-`undefined` binding.  The test `typeof o[k] === 'undefined'`
  (true both when the key is absent and when it is bound to `undefined`)
  is `readDefined o k = none`.
* `throw` in TypeScript is `Except.error` with the thrown message;
  asynchronous validators are total Lean functions (the engine awaits each
  call sequentially, so the promise layer is semantically transparent).
* The recursive depth-first search of `detectRequiresCycles` and the
  work-list loop of Kahn's algorithm are written with an explicit fuel
  parameter; the entry points pass enough fuel that the fuel-exhaustion
  branch is unreachable (this is proved, not assumed, by the theorems
  characterising their behaviour).
* `validateToolInput` is instrumented with a ghost trace (`calls`)
  recording each validator invocation together with the raw value and the
  context object it received, and the outcome it returned.  The trace is
  write-only: no control flow or result depends on it.
* The cosmetic `description` field, the `dynamicParameterSchema` escape
  hatch (a Zod schema, not first-order data) and the logging calls
  (`log`, `delayedLog`) are dropped: the engine's control flow and results
  never depend on them.
-/

namespace Tool2Agent

/-- Model of a JavaScript runtime value: null, booleans, numbers, strings,
arrays and plain objects (fields in insertion order). -/
inductive Value where
  | vNull
  | vBool (b : Bool)
  | vNum (n : Int)
  | vStr (s : String)
  | vArr (elems : List Value)
  | vObj (fields : List (String × Value))

mutual

/-- Structural (deep) equality test on values; this is the model of
Node's `util.isDeepStrictEqual` on the data reachable by the engine. -/
def Value.beq : Value → Value → Bool
  | .vNull, .vNull => true
  | .vBool a, .vBool b => a == b
  | .vNum a, .vNum b => a == b
  | .vStr a, .vStr b => a == b
  | .vArr xs, .vArr ys => Value.beqList xs ys
  | .vObj xs, .vObj ys => Value.beqFields xs ys
  | _, _ => false

/-- Element-wise deep equality of arrays. -/
def Value.beqList : List Value → List Value → Bool
  | [], [] => true
  | x :: xs, y :: ys => Value.beq x y && Value.beqList xs ys
  | _, _ => false

/-- Field-wise deep equality of objects. -/
def Value.beqFields : List (String × Value) → List (String × Value) → Bool
  | [], [] => true
  | (k₁, v₁) :: xs, (k₂, v₂) :: ys => k₁ == k₂ && Value.beq v₁ v₂ && Value.beqFields xs ys
  | _, _ => false

end

mutual

theorem Value.beq_iff : ∀ a b : Value, Value.beq a b = true ↔ a = b
  | .vNull, .vNull => by simp [Value.beq]
  | .vBool a, .vBool b => by simp [Value.beq]
  | .vNum a, .vNum b => by simp [Value.beq]
  | .vStr a, .vStr b => by simp [Value.beq]
  | .vArr xs, .vArr ys => by
      simp only [Value.beq, Value.beqList_iff xs ys]
      constructor
      · intro h; rw [h]
      · intro h; injection h
  | .vObj xs, .vObj ys => by
      simp only [Value.beq, Value.beqFields_iff xs ys]
      constructor
      · intro h; rw [h]
      · intro h; injection h
  | .vNull, .vBool _ | .vNull, .vNum _ | .vNull, .vStr _ | .vNull, .vArr _ | .vNull, .vObj _
  | .vBool _, .vNull | .vBool _, .vNum _ | .vBool _, .vStr _ | .vBool _, .vArr _
  | .vBool _, .vObj _
  | .vNum _, .vNull | .vNum _, .vBool _ | .vNum _, .vStr _ | .vNum _, .vArr _ | .vNum _, .vObj _
  | .vStr _, .vNull | .vStr _, .vBool _ | .vStr _, .vNum _ | .vStr _, .vArr _ | .vStr _, .vObj _
  | .vArr _, .vNull | .vArr _, .vBool _ | .vArr _, .vNum _ | .vArr _, .vStr _ | .vArr _, .vObj _
  | .vObj _, .vNull | .vObj _, .vBool _ | .vObj _, .vNum _ | .vObj _, .vStr _
  | .vObj _, .vArr _ => by
      simp [Value.beq]

theorem Value.beqList_iff : ∀ xs ys : List Value, Value.beqList xs ys = true ↔ xs = ys
  | [], [] => by simp [Value.beqList]
  | x :: xs, y :: ys => by
      simp only [Value.beqList, Bool.and_eq_true, Value.beq_iff x y, Value.beqList_iff xs ys]
      constructor
      · rintro ⟨h₁, h₂⟩; rw [h₁, h₂]
      · intro h; injection h with h₁ h₂; exact ⟨h₁, h₂⟩
  | [], _ :: _ => by simp [Value.beqList]
  | _ :: _, [] => by simp [Value.beqList]

theorem Value.beqFields_iff :
    ∀ xs ys : List (String × Value), Value.beqFields xs ys = true ↔ xs = ys
  | [], [] => by simp [Value.beqFields]
  | (k₁, v₁) :: xs, (k₂, v₂) :: ys => by
      simp only [Value.beqFields, Bool.and_eq_true, Value.beq_iff v₁ v₂,
        Value.beqFields_iff xs ys, beq_iff_eq]
      constructor
      · rintro ⟨⟨h₀, h₁⟩, h₂⟩; rw [h₀, h₁, h₂]
      · intro h
        injection h with h₁ h₂
        injection h₁ with h₁a h₁b
        exact ⟨⟨h₁a, h₁b⟩, h₂⟩
  | [], _ :: _ => by simp [Value.beqFields]
  | _ :: _, [] => by simp [Value.beqFields]

end

instance : DecidableEq Value := fun a b =>
  decidable_of_iff (Value.beq a b = true) (Value.beq_iff a b)

/-! ## JavaScript objects as association lists -/

/-- Property read `o[k]` on a JS object: value of the first (and, for the
lists built in this development, only) binding of `k`. -/
def objGet {α : Type} (o : List (String × α)) (k : String) : Option α :=
  (o.find? fun e => e.1 == k).map (·.2)

/-- Property assignment `o[k] = v` on a JS object: if the key is already
present its value is updated in place (the key keeps its position), else
the binding is appended.  Also models `{ ...o, [k]: v }`. -/
def objSet {α : Type} (o : List (String × α)) (k : String) (v : α) : List (String × α) :=
  if o.any fun e => e.1 == k then o.map fun e => if e.1 == k then (k, v) else e
  else o ++ [(k, v)]

/-- A working value set / input record: JS object whose bindings may hold
`undefined` (`none`). -/
abbrev VF := List (String × Option Value)

/-- A context object passed to a validator: all bindings are defined. -/
abbrev Ctx := List (String × Value)

/-- Model of the test `typeof o[k] !== 'undefined'`: the defined value at
`k`, if any.  Returns `none` when the key is absent or bound to
`undefined`. -/
def readDefined (o : VF) (k : String) : Option Value :=
  match objGet o k with
  | some (some v) => some v
  | _ => none

/-- `Object.fromEntries`: builds an object by assigning the entries in
order (a later entry for the same key overwrites the earlier value). -/
def fromEntries (entries : List (String × Value)) : Ctx :=
  entries.foldl (fun acc e => objSet acc e.1 e.2) []

/-! ## Result data model (from `@tool2agent/types`)

`ParameterValidationResult` from `packages/types/src/tool2agent.ts`:
tagged by `valid`, with the optional feedback payload fields the engine
can carry.  An absent optional key is `none`. -/

/-- Per-field validation outcome (`ParameterValidationResult`). -/
structure ParamResult where
  valid : Bool
  normalizedValue : Option Value
  problems : Option (List String)
  requiresValidParameters : Option (List String)
  allowedValues : Option (List Value)
  suggestedValues : Option (List Value)
  feedback : Option (List String)
  instructions : Option (List String)
deriving DecidableEq

/-- The outcome `{ valid: false, requiresValidParameters: missing }`
recorded when a field's requirements are unmet. -/
def ParamResult.ofMissing (missing : List String) : ParamResult :=
  ⟨false, none, none, some missing, none, none, none, none⟩

/-- A valid outcome with no extra payload (`{ valid: true }`). -/
def ParamResult.okPlain : ParamResult :=
  ⟨true, none, none, none, none, none, none, none⟩

/-- A valid outcome carrying a normalized value. -/
def ParamResult.okNorm (v : Value) : ParamResult :=
  ⟨true, some v, none, none, none, none, none, none⟩

/-! ## Field specifications (`ToolFieldConfig`, `ToolSpec`) -/

/-- One field's configuration: its hard prerequisites and its validator
`(rawValue, context) → outcome`.  The raw value may be `undefined`. -/
structure ToolFieldConfig where
  requires : List String
  validate : Option Value → Ctx → ParamResult

/-- A tool specification: dynamic field name → configuration, in
declaration order (JS object). -/
abbrev ToolSpec := List (String × ToolFieldConfig)

/-! ## A kernel-computable lexicographic string order

The ready queue of `toposortFields` is kept sorted with the JS comparator
`(a, b) => a.localeCompare(b)`; for field names this is lexicographic
comparison, modelled here by a structurally recursive comparison of the
character lists (so that concrete runs evaluate inside the kernel). -/

/-- Lexicographic comparison of character lists by code point. -/
def charListLe : List Char → List Char → Bool
  | [], _ => true
  | _ :: _, [] => false
  | a :: as, b :: bs =>
    if a.toNat < b.toNat then true
    else if b.toNat < a.toNat then false
    else charListLe as bs

/-- Lexicographic string comparison (the sort comparator). -/
def strLe (a b : String) : Bool := charListLe a.data b.data

/-- The comparator as a relation, for the sorting lemmas. -/
def SLe (a b : String) : Prop := strLe a b = true

instance : DecidableRel SLe := fun a b => inferInstanceAs (Decidable (strLe a b = true))

theorem charListLe_total : ∀ as bs, charListLe as bs = true ∨ charListLe bs as = true := by
  intro as
  induction as with
  | nil => intro bs; left; rfl
  | cons a as ih =>
    intro bs
    cases bs with
    | nil => right; rfl
    | cons b bs =>
      unfold charListLe
      rcases Nat.lt_trichotomy a.toNat b.toNat with h | h | h
      · left; rw [if_pos h]
      · rw [if_neg (by omega), if_neg (by omega), if_neg (by omega), if_neg (by omega)]
        exact ih bs
      · right; rw [if_pos h]

theorem charListLe_trans : ∀ as bs cs, charListLe as bs = true →
    charListLe bs cs = true → charListLe as cs = true := by
  intro as
  induction as with
  | nil => intro bs cs _ _; rfl
  | cons a as ih =>
    intro bs cs h1 h2
    cases bs with
    | nil => exact absurd h1 (by simp [charListLe])
    | cons b bs =>
      cases cs with
      | nil => exact absurd h2 (by simp [charListLe])
      | cons c cs =>
        unfold charListLe at h1 h2 ⊢
        rcases Nat.lt_trichotomy a.toNat b.toNat with hab | hab | hab
        · rcases Nat.lt_trichotomy b.toNat c.toNat with hbc | hbc | hbc
          · rw [if_pos (by omega)]
          · rw [if_pos (by omega)]
          · rw [if_neg (by omega), if_pos hbc] at h2
            exact absurd h2 (by simp)
        · rcases Nat.lt_trichotomy b.toNat c.toNat with hbc | hbc | hbc
          · rw [if_pos (by omega)]
          · rw [if_neg (by omega), if_neg (by omega)]
            rw [if_neg (by omega), if_neg (by omega)] at h1
            rw [if_neg (by omega), if_neg (by omega)] at h2
            exact ih bs cs h1 h2
          · rw [if_neg (by omega), if_pos hbc] at h2
            exact absurd h2 (by simp)
        · rw [if_neg (by omega), if_pos hab] at h1
          exact absurd h1 (by simp)

theorem charListLe_antisymm : ∀ as bs, charListLe as bs = true →
    charListLe bs as = true → as = bs := by
  intro as
  induction as with
  | nil =>
    intro bs _ h2
    cases bs with
    | nil => rfl
    | cons b bs => exact absurd h2 (by simp [charListLe])
  | cons a as ih =>
    intro bs h1 h2
    cases bs with
    | nil => exact absurd h1 (by simp [charListLe])
    | cons b bs =>
      unfold charListLe at h1 h2
      rcases Nat.lt_trichotomy a.toNat b.toNat with hab | hab | hab
      · rw [if_neg (by omega), if_pos hab] at h2
        exact absurd h2 (by simp)
      · rw [if_neg (by omega), if_neg (by omega)] at h1
        rw [if_neg (by omega), if_neg (by omega)] at h2
        have hchar : a = b := by
          have hv : Char.ofNat a.toNat = Char.ofNat b.toNat := by rw [hab]
          rwa [Char.ofNat_toNat, Char.ofNat_toNat] at hv
        rw [hchar, ih bs h1 h2]
      · rw [if_neg (by omega), if_pos hab] at h1
        exact absurd h1 (by simp)

instance : IsTotal String SLe :=
  ⟨fun a b => charListLe_total a.data b.data⟩

instance : IsTrans String SLe :=
  ⟨fun a b c h1 h2 => charListLe_trans a.data b.data c.data h1 h2⟩

instance : IsAntisymm String SLe :=
  ⟨fun a b h1 h2 => String.ext (charListLe_antisymm a.data b.data h1 h2)⟩

/-! ## Dependency graph utilities (`graph.ts`) -/

/-- The `requires` adjacency used by both graph utilities:
`spec[node]?.requires ?? []` — fields absent from the specification are
leaves. -/
def graphOf (spec : List (String × List String)) : String → List String :=
  fun n => ((spec.find? fun e => e.1 == n).map (·.2)).getD []

/-- One depth-first-search step of `detectRequiresCycles`.  `path` is the
chain of ancestors of `node` on the call stack (the code's `inStack` set
always holds exactly the members of `path`); `visited` accumulates every
node ever entered; `cycles` accumulates the recorded cycles.  A revisit of
a node on the current path records `path.slice(path.indexOf(node))`; a
revisit of an already visited node is skipped; otherwise the node is
marked visited and its `requires` successors are searched with the node
appended to the path.  The structural recursion is paid for by `fuel`;
`detectRequiresCycles` passes fuel larger than the number of mentioned
nodes, which the development proves is never exhausted. -/
def dfsCycles (g : String → List String) :
    Nat → String → List String → List String × List (List String) →
      List String × List (List String)
  | 0, _, _, st => st
  | fuel + 1, node, path, (visited, cycles) =>
    if node ∈ path then (visited, cycles ++ [path.drop (path.indexOf node)])
    else if node ∈ visited then (visited, cycles)
    else (g node).foldl (fun st nb => dfsCycles g fuel nb (path ++ [node]) st)
      (visited ++ [node], cycles)

/-- `detectRequiresCycles` from `graph.ts`: depth-first search from every
key, collecting every cycle discovered on the current search path. -/
def detectRequiresCycles (spec : List (String × List String)) : List (List String) :=
  let g := graphOf spec
  let fuel := (spec.map (·.1) ++ spec.flatMap (·.2)).length + 1
  ((spec.map (·.1)).foldl (fun st k => dfsCycles g fuel k [] st) ([], [])).2

/-- The `dependents` adjacency of `toposortFields`: `r` maps to each key
`k` once per occurrence of `r` in `k`'s `requires`, in key order; only
keys get a dependents list (an `r` outside the key set has none). -/
def dependentsOf (keys : List String) (g : String → List String) (r : String) :
    List String :=
  if r ∈ keys then keys.flatMap fun k => ((g k).filter fun r2 => r2 == r).map fun _ => k
  else []

/-- The update applied for one entry of the emitted field's dependents
list: decrement the dependent's in-degree (the in-degree map is a
function updated pointwise) and, when it reaches zero, enqueue it,
re-sorting the ready queue. -/
def kahnStep (p : (String → Nat) × List String) (dep : String) :
    (String → Nat) × List String :=
  let nextDeg := p.1 dep - 1
  ((fun x => if x == dep then nextDeg else p.1 x),
    if nextDeg = 0 then List.insertionSort SLe (p.2 ++ [dep]) else p.2)

/-- The work-list loop of `toposortFields` (Kahn's algorithm): shift the
front of the sorted ready queue, append it to the output, and apply
`kahnStep` for each of its dependents.  Fuel pays for the recursion;
`toposortFields` passes more fuel than the loop can ever iterate. -/
def kahnLoop (dependents : String → List String) :
    Nat → List String → (String → Nat) → List String → List String
  | 0, _, _, order => order
  | fuel + 1, ready, inDeg, order =>
    match ready with
    | [] => order
    | current :: rest =>
      let st := (dependents current).foldl kahnStep (inDeg, rest)
      kahnLoop dependents fuel st.2 st.1 (order ++ [current])

/-- `toposortFields` from `graph.ts`: Kahn's algorithm over the
`requires` edges, ready queue kept sorted by field name; raises when the
output misses nodes. -/
def toposortFields (spec : List (String × List String)) : Except String (List String) :=
  let keys := spec.map (·.1)
  let g := graphOf spec
  let inDeg0 : String → Nat := fun k => (g k).length
  let ready0 := List.insertionSort SLe (keys.filter fun k => inDeg0 k == 0)
  let order := kahnLoop (dependentsOf keys g) (keys.length + 1) ready0 inDeg0 []
  if order.length = keys.length then .ok order
  else .error "Cycle detected or missing nodes during toposort"

/-! ## The validation engine (`validation.ts`) -/

/-- `validateToolSpec`: project each field to its `requires` list, detect
cycles, and throw a configuration error enumerating them if any exist. -/
def validateToolSpec (spec : ToolSpec) : Except String Unit :=
  let flowLike := spec.map fun e => (e.1, e.2.requires)
  let cycles := detectRequiresCycles flowLike
  if cycles = [] then .ok ()
  else .error ("Cycle detected in requires graph: " ++
    String.intercalate "; " (cycles.map (String.intercalate " -> ")))

/-- Result of `buildContext`: either the context object for the
validator, or the list of missing requirements. -/
inductive BuildContextResult where
  | success (context : Ctx)
  | failure (missingRequirements : List String)
deriving DecidableEq

/-- `buildContext` from `validation.ts`.  If some `requires` field has no
defined value in the working value set, fail with the missing subset (in
`requires` order).  Otherwise assemble the context entries: the required
fields' values, then every defined static (non-dynamic) binding other
than the field itself, then every other defined dynamic binding that is
neither the field itself nor already added as a requirement. -/
def buildContext (rule : ToolFieldConfig) (fieldKey : String) (validFields : VF)
    (dynamicSet : List String) : BuildContextResult :=
  let missing := rule.requires.filter fun dep => (readDefined validFields dep).isNone
  if missing = [] then
    let entries1 := rule.requires.filterMap fun r =>
      (readDefined validFields r).map fun v => (r, v)
    let entries2 := validFields.filterMap fun e =>
      if e.1 ≠ fieldKey ∧ e.1 ∉ dynamicSet then e.2.map fun v => (e.1, v) else none
    let entries3 := validFields.filterMap fun e =>
      if e.1 ≠ fieldKey ∧ e.1 ∉ rule.requires ∧ e.1 ∈ dynamicSet then
        e.2.map fun v => (e.1, v)
      else none
    .success (fromEntries (entries1 ++ entries2 ++ entries3))
  else .failure missing

/-- `initializeStaticFields`: seed the working value set with every input
binding whose key is not dynamic and whose value is defined. -/
def initializeStaticFields (dynamicInput : VF) (dynamicSet : List String) : VF :=
  dynamicInput.foldl
    (fun acc e =>
      if e.1 ∉ dynamicSet ∧ e.2.isSome then objSet acc e.1 e.2 else acc) []

/-- `sortFields`: topologically sorted keys based on `requires`
dependencies. -/
def sortFields (spec : ToolSpec) : Except String (List String) :=
  toposortFields (spec.map fun e => (e.1, e.2.requires))

/-- `processValidationResult`: strip a `normalizedValue` deep-equal to the
raw input value (no-op normalization), and compute the working-value-set
update — for a valid outcome, the normalized value if present, else the
raw input value (possibly `undefined`); for an invalid outcome, no
update.  Returns the processed outcome and the optional update. -/
def processValidationResult (value : Option Value) (validationResult : ParamResult) :
    ParamResult × Option (Option Value) :=
  let processedResult :=
    if value = validationResult.normalizedValue then
      { validationResult with normalizedValue := none }
    else validationResult
  let update : Option (Option Value) :=
    if processedResult.valid then
      some (match processedResult.normalizedValue with
        | some n => some n
        | none => value)
    else none
  (processedResult, update)

/-- Ghost record of one validator invocation: the field, the raw input
value passed, the context object passed, and the outcome returned. -/
structure CallRec where
  field : String
  value : Option Value
  context : Ctx
  result : ParamResult
deriving DecidableEq

/-- State threaded through the field loop of `validateToolInput`: the
working value set, the per-field outcomes recorded so far, and the ghost
trace of validator invocations. -/
structure IterState where
  validFields : VF
  validationResults : List (String × ParamResult)
  calls : List CallRec

/-- The body of `validateToolInput`'s loop for one dynamic field: look up
its configuration (a missing one is thrown — unreachable, since the
sorted fields are the specification's keys), ask `buildContext` for the
context, record the missing-requirements outcome without invoking the
validator when requirements are unmet, otherwise invoke the validator,
process its outcome and fold the update into the working value set. -/
def stepField (spec : ToolSpec) (loose : VF) (dynamicSet : List String)
    (st : IterState) (dynamicField : String) : Except String IterState :=
  match objGet spec dynamicField with
  | none => .error ("Field spec not found for " ++ dynamicField)
  | some fieldSpec =>
    let value := readDefined loose dynamicField
    match buildContext fieldSpec dynamicField st.validFields dynamicSet with
    | .failure missing =>
      .ok { st with
        validationResults :=
          objSet st.validationResults dynamicField (ParamResult.ofMissing missing) }
    | .success context =>
      let validationResult := fieldSpec.validate value context
      let processed := processValidationResult value validationResult
      let validFields := match processed.2 with
        | some w => objSet st.validFields dynamicField w
        | none => st.validFields
      .ok { validFields := validFields,
            validationResults := objSet st.validationResults dynamicField processed.1,
            calls := st.calls ++ [⟨dynamicField, value, context, validationResult⟩] }

/-- The run of `validateToolInput` up to the accept/reject decision:
seeds the static fields, computes the execution order, and folds the
field loop; returns the order together with the final loop state. -/
def validateToolInputRun (spec : ToolSpec) (loose : VF) :
    Except String (List String × IterState) := do
  let dynamicSet := spec.map (·.1)
  let validFields0 := initializeStaticFields loose dynamicSet
  let sortedFields ← sortFields spec
  let st ← sortedFields.foldlM (stepField spec loose dynamicSet)
    ⟨validFields0, [], []⟩
  return (sortedFields, st)

/-- Call result (`ToolCallValidationResult`): accepted with the full
resolved value set, or rejected with the per-field outcome map. -/
inductive ToolCallValidationResult where
  | accepted (value : VF)
  | rejected (validationResults : List (String × ParamResult))
deriving DecidableEq

/-- `validateToolInput` from `validation.ts`: run the field loop, then
accept iff no recorded outcome is explicitly invalid
(`validationResults[k]?.valid !== false` for every sorted field),
carrying the final working value set; otherwise reject, carrying the
outcome map. -/
def validateToolInput (spec : ToolSpec) (loose : VF) :
    Except String ToolCallValidationResult :=
  (validateToolInputRun spec loose).map fun run =>
    let allValidOrSkipped := run.1.all fun k =>
      !((objGet run.2.validationResults k).map (·.valid) == some false)
    if allValidOrSkipped then .accepted run.2.validFields
    else .rejected run.2.validationResults


/-! ## Basic lemmas about the JS-object operations -/

/-- Key list of a JS object. -/
def keysOf {α : Type} (o : List (String × α)) : List String := o.map (·.1)

theorem keysOf_nil {α : Type} : keysOf ([] : List (String × α)) = [] := rfl

theorem keysOf_cons {α : Type} (e : String × α) (o : List (String × α)) :
    keysOf (e :: o) = e.1 :: keysOf o := rfl

theorem objGet_nil {α : Type} (k : String) : objGet ([] : List (String × α)) k = none := rfl

theorem objGet_cons {α : Type} (e : String × α) (o : List (String × α)) (k : String) :
    objGet (e :: o) k = if e.1 = k then some e.2 else objGet o k := by
  by_cases he : e.1 = k <;> simp [objGet, List.find?_cons, he]

theorem mem_of_objGet_eq_some {α : Type} {o : List (String × α)} {k : String} {v : α}
    (h : objGet o k = some v) : (k, v) ∈ o := by
  induction o with
  | nil => simp [objGet] at h
  | cons e o ih =>
    rw [objGet_cons] at h
    by_cases he : e.1 = k
    · simp only [he, if_true, Option.some.injEq] at h
      have : e = (k, v) := by
        obtain ⟨e1, e2⟩ := e
        simp only at he h
        rw [he, h]
      rw [← this]
      exact List.mem_cons_self e o
    · simp only [he, if_false] at h
      exact List.mem_cons_of_mem e (ih h)

theorem objGet_eq_none_iff {α : Type} (o : List (String × α)) (k : String) :
    objGet o k = none ↔ k ∉ keysOf o := by
  induction o with
  | nil => simp [objGet, keysOf]
  | cons e o ih =>
    rw [objGet_cons, keysOf_cons]
    by_cases he : e.1 = k
    · simp [he]
    · simp only [he, if_false, List.mem_cons, not_or, ih]
      constructor
      · intro h; exact ⟨fun hc => he hc.symm, h⟩
      · intro h; exact h.2

theorem objGet_isSome_iff {α : Type} (o : List (String × α)) (k : String) :
    (objGet o k).isSome ↔ k ∈ keysOf o := by
  rw [Option.isSome_iff_ne_none]
  constructor
  · intro h
    by_contra hc
    exact h ((objGet_eq_none_iff o k).mpr hc)
  · intro h hc
    exact (objGet_eq_none_iff o k).mp hc h

theorem objGet_eq_some_iff_of_nodup {α : Type} {o : List (String × α)} {k : String} {v : α}
    (hnd : (keysOf o).Nodup) : objGet o k = some v ↔ (k, v) ∈ o := by
  constructor
  · exact mem_of_objGet_eq_some
  · intro hm
    induction o with
    | nil => simp at hm
    | cons e o ih =>
      rw [objGet_cons]
      rcases List.mem_cons.mp hm with h | h
      · simp [← h]
      · have hk : k ∈ keysOf o := List.mem_map.mpr ⟨(k, v), h, rfl⟩
        have he : e.1 ≠ k := by
          rintro rfl
          exact (List.nodup_cons.mp hnd).1 hk
        simp only [he, if_false]
        exact ih (List.nodup_cons.mp hnd).2 h

theorem objGet_append {α : Type} (o1 o2 : List (String × α)) (k : String) :
    objGet (o1 ++ o2) k =
      match objGet o1 k with
      | some v => some v
      | none => objGet o2 k := by
  induction o1 with
  | nil => simp [objGet_nil]
  | cons e o ih =>
    rw [List.cons_append, objGet_cons, objGet_cons]
    by_cases he : e.1 = k
    · simp [he]
    · simp only [he, if_false]
      exact ih

theorem any_keysOf {α : Type} (o : List (String × α)) (k : String) :
    (o.any fun e => e.1 == k) = true ↔ k ∈ keysOf o := by
  rw [List.any_eq_true]
  constructor
  · rintro ⟨e, he, hek⟩
    exact List.mem_map.mpr ⟨e, he, by simpa using hek⟩
  · intro h
    rcases List.mem_map.mp h with ⟨e, he, hek⟩
    exact ⟨e, he, by simpa using hek⟩

theorem objGet_objSet_self {α : Type} (o : List (String × α)) (k : String) (v : α) :
    objGet (objSet o k v) k = some v := by
  unfold objSet
  by_cases hmem : (o.any fun e => e.1 == k) = true
  · rw [if_pos hmem]
    induction o with
    | nil => simp at hmem
    | cons e o ih =>
      by_cases he : e.1 = k
      · simp [objGet_cons, he]
      · simp only [List.any_cons, Bool.or_eq_true, beq_iff_eq, he, false_or] at hmem
        have heq : (if e.1 == k then (k, v) else e) = e := by simp [he]
        rw [List.map_cons, heq, objGet_cons]
        simp only [he, if_false]
        exact ih hmem
  · rw [if_neg hmem]
    have hk : objGet o k = none := by
      rw [objGet_eq_none_iff]
      intro hc
      exact hmem ((any_keysOf o k).mpr hc)
    rw [objGet_append, hk]
    simp [objGet_cons]

theorem objGet_map_objSetFn {α : Type} (o : List (String × α)) {k q : String}
    (h : q ≠ k) (v : α) :
    objGet (o.map fun e => if e.1 == k then (k, v) else e) q = objGet o q := by
  induction o with
  | nil => rfl
  | cons e o ih =>
    rw [List.map_cons]
    by_cases he : e.1 = k
    · have hq : e.1 ≠ q := by rw [he]; exact fun hc => h hc.symm
      have : (if e.1 == k then (k, v) else e) = (k, v) := by simp [he]
      rw [this, objGet_cons, objGet_cons]
      simp only [Ne.symm h, hq, if_false]
      exact ih
    · have : (if e.1 == k then (k, v) else e) = e := by simp [he]
      rw [this, objGet_cons, objGet_cons]
      by_cases heq : e.1 = q
      · simp [heq]
      · simp only [heq, if_false]
        exact ih

theorem objGet_objSet_ne {α : Type} (o : List (String × α)) {k q : String} (h : q ≠ k)
    (v : α) : objGet (objSet o k v) q = objGet o q := by
  unfold objSet
  by_cases hmem : (o.any fun e => e.1 == k) = true
  · rw [if_pos hmem]
    exact objGet_map_objSetFn o h v
  · rw [if_neg hmem, objGet_append]
    cases hq : objGet o q with
    | some w => simp
    | none => simp [objGet_cons, Ne.symm h, objGet_nil]

theorem keysOf_map_objSetFn {α : Type} (o : List (String × α)) (k : String) (v : α)
    (_hmem : (o.any fun e => e.1 == k) = true) :
    keysOf (o.map fun e => if e.1 == k then (k, v) else e) = keysOf o := by
  unfold keysOf
  rw [List.map_map]
  apply List.map_congr_left
  intro e _
  by_cases hek : e.1 = k
  · simp [hek]
  · simp [hek]

theorem mem_keysOf_objSet {α : Type} (o : List (String × α)) (k x : String) (v : α) :
    x ∈ keysOf (objSet o k v) ↔ x ∈ keysOf o ∨ x = k := by
  unfold objSet
  by_cases hmem : (o.any fun e => e.1 == k) = true
  · rw [if_pos hmem, keysOf_map_objSetFn o k v hmem]
    have hk : k ∈ keysOf o := (any_keysOf o k).mp hmem
    constructor
    · exact Or.inl
    · rintro (hx | rfl)
      · exact hx
      · exact hk
  · rw [if_neg hmem]
    simp [keysOf]

theorem nodupKeys_objSet {α : Type} (o : List (String × α)) (k : String) (v : α)
    (hnd : (keysOf o).Nodup) : (keysOf (objSet o k v)).Nodup := by
  unfold objSet
  by_cases hmem : (o.any fun e => e.1 == k) = true
  · rw [if_pos hmem, keysOf_map_objSetFn o k v hmem]
    exact hnd
  · rw [if_neg hmem]
    have hk : k ∉ keysOf o := fun hx => hmem ((any_keysOf o k).mpr hx)
    unfold keysOf
    rw [List.map_append]
    exact List.Nodup.append hnd (by simp) (by
      intro x hx hx2
      simp at hx2
      rw [hx2] at hx
      exact hk hx)

/-! ## Cycles in a requires graph -/

/-- Edge relation of a requires graph: `a` requires `b`. -/
def EdgeTo (g : String → List String) (a b : String) : Prop := b ∈ g a

instance (g : String → List String) (a b : String) : Decidable (EdgeTo g a b) :=
  inferInstanceAs (Decidable (b ∈ g a))

/-- The list `x :: rest` denotes the cycle `x → rest₀ → … → x` of the
graph: consecutive elements are edges and the last element has an edge
back to the first.  A one-element list is a self-loop. -/
def IsCycle (g : String → List String) : List String → Prop
  | [] => False
  | x :: rest => List.Chain (EdgeTo g) x (rest ++ [x])

instance (g : String → List String) : (c : List String) → Decidable (IsCycle g c)
  | [] => isFalse (fun h => h)
  | x :: rest => inferInstanceAs (Decidable (List.Chain (EdgeTo g) x (rest ++ [x])))

/-- A requires graph is acyclic when it admits no cycle. -/
def Acyclic (g : String → List String) : Prop := ∀ c, ¬IsCycle g c

theorem transGen_self_of_isCycle {g : String → List String} {c : List String}
    (h : IsCycle g c) : ∃ x, Relation.TransGen (EdgeTo g) x x := by
  match c with
  | [] => exact absurd h (by simp [IsCycle])
  | x :: rest =>
    refine ⟨x, ?_⟩
    have h2 : List.Chain (EdgeTo g) x (rest ++ [x]) := h
    cases hre : rest ++ [x] with
    | nil => exact absurd hre (by simp)
    | cons y l =>
      rw [hre, List.chain_cons] at h2
      refine Relation.TransGen.head' h2.1 ?_
      refine List.relationReflTransGen_of_exists_chain l h2.2 ?_
      have h3 : (y :: l).getLast? = some x := by
        rw [← hre, List.getLast?_append_cons]
        rfl
      rw [List.getLast?_eq_getLast_of_ne_nil (List.cons_ne_nil y l)] at h3
      exact Option.some.inj h3

theorem isCycle_of_transGen_self {g : String → List String} {x : String}
    (h : Relation.TransGen (EdgeTo g) x x) : ∃ c, IsCycle g c := by
  rcases Relation.TransGen.head'_iff.mp h with ⟨y, hxy, hyx⟩
  rcases List.exists_chain_of_relationReflTransGen hyx with ⟨l, hchain, hlast⟩
  refine ⟨x :: (y :: l).dropLast, ?_⟩
  have hdecomp : (y :: l).dropLast ++ [x] = y :: l := by
    have h1 := List.dropLast_append_getLast (l := y :: l) (List.cons_ne_nil y l)
    rw [show (y :: l).getLast (List.cons_ne_nil y l) = x from hlast] at h1
    exact h1
  show List.Chain (EdgeTo g) x ((y :: l).dropLast ++ [x])
  rw [hdecomp, List.chain_cons]
  exact ⟨hxy, hchain⟩

/-- Pigeonhole: in a finite vertex list where every member has a
successor inside the list, the graph has a reachability loop. -/
theorem transGen_self_of_all_have_succ (g : String → List String) (S : List String)
    (hne : S ≠ []) (hsucc : ∀ x ∈ S, ∃ y ∈ S, y ∈ g x) :
    ∃ x, Relation.TransGen (EdgeTo g) x x := by
  classical
  have hx0 : ∃ x, x ∈ S := by
    cases S with
    | nil => exact absurd rfl hne
    | cons a l => exact ⟨a, by simp⟩
  obtain ⟨x0, hx0⟩ := hx0
  let f : {x // x ∈ S} → {x // x ∈ S} := fun x =>
    ⟨Classical.choose (hsucc x.1 x.2), (Classical.choose_spec (hsucc x.1 x.2)).1⟩
  have hf : ∀ x : {x // x ∈ S}, (f x).1 ∈ g x.1 := fun x =>
    (Classical.choose_spec (hsucc x.1 x.2)).2
  let seq : ℕ → {x // x ∈ S} := fun n => f^[n] ⟨x0, hx0⟩
  have hstep : ∀ n, EdgeTo g (seq n).1 (seq (n + 1)).1 := by
    intro n
    have : seq (n + 1) = f (seq n) := by
      show f^[n + 1] _ = f (f^[n] _)
      rw [Function.iterate_succ_apply']
    rw [this]
    exact hf (seq n)
  have hchain : ∀ i d : ℕ, Relation.TransGen (EdgeTo g) (seq i).1 (seq (i + d + 1)).1 := by
    intro i d
    induction d with
    | zero => exact Relation.TransGen.single (hstep i)
    | succ d ih => exact Relation.TransGen.tail ih (hstep (i + d + 1))
  have hfin : ∃ i j, i ∈ Finset.range (S.length + 1) ∧ j ∈ Finset.range (S.length + 1) ∧
      i ≠ j ∧ (seq i).1 = (seq j).1 := by
    have hcard : S.toFinset.card < (Finset.range (S.length + 1)).card := by
      rw [Finset.card_range]
      exact Nat.lt_succ_of_le (List.toFinset_card_le S)
    have hmaps : ∀ i ∈ Finset.range (S.length + 1), (seq i).1 ∈ S.toFinset := by
      intro i _
      exact List.mem_toFinset.mpr (seq i).2
    obtain ⟨i, hi, j, hj, hij, heq⟩ :=
      Finset.exists_ne_map_eq_of_card_lt_of_maps_to hcard hmaps
    exact ⟨i, j, hi, hj, hij, heq⟩
  obtain ⟨i, j, _, _, hij, heq⟩ := hfin
  rcases Nat.lt_trichotomy i j with hlt | heqij | hgt
  · obtain ⟨d, rfl⟩ : ∃ d, j = i + d + 1 := ⟨j - i - 1, by omega⟩
    refine ⟨(seq i).1, ?_⟩
    nth_rewrite 2 [heq]
    exact hchain i d
  · exact absurd heqij hij
  · obtain ⟨d, rfl⟩ : ∃ d, i = j + d + 1 := ⟨i - j - 1, by omega⟩
    refine ⟨(seq j).1, ?_⟩
    nth_rewrite 2 [← heq]
    exact hchain j d

/-! ## Soundness of `detectRequiresCycles`: every recorded cycle is real -/

theorem dfsCycles_sound (g : String → List String) :
    ∀ (fuel : Nat) (node : String) (path : List String)
      (st : List String × List (List String)),
      List.Chain' (EdgeTo g) (path ++ [node]) →
      ∀ c ∈ (dfsCycles g fuel node path st).2, c ∈ st.2 ∨ IsCycle g c := by
  intro fuel
  induction fuel with
  | zero => intro node path st _ c hc; exact Or.inl hc
  | succ f ih =>
    intro node path st hchain c hc
    rw [dfsCycles] at hc
    by_cases hmem : node ∈ path
    · simp only [if_pos hmem] at hc
      rcases List.mem_append.mp hc with h | h
      · exact Or.inl h
      · right
        have hcc : c = path.drop (path.indexOf node) := by simpa using h
        have hidx : path.indexOf node < path.length := List.indexOf_lt_length.mpr hmem
        have hdrop : path.drop (path.indexOf node) =
            node :: path.drop (path.indexOf node + 1) := by
          rw [List.drop_eq_getElem_cons hidx, List.getElem_indexOf hidx]
        have hsuffix : (path.drop (path.indexOf node)) ++ [node] <:+ path ++ [node] := by
          rw [← List.drop_append_of_le_length (Nat.le_of_lt hidx)]
          exact List.drop_suffix _ _
        have hchain2 : List.Chain' (EdgeTo g) ((path.drop (path.indexOf node)) ++ [node]) :=
          List.Chain'.suffix hchain hsuffix
        rw [hdrop, List.cons_append] at hchain2
        rw [hcc, hdrop]
        exact hchain2
    · simp only [if_neg hmem] at hc
      by_cases hvis : node ∈ st.1
      · simp only [if_pos hvis] at hc
        exact Or.inl hc
      · simp only [if_neg hvis] at hc
        -- fold over the successors
        have hfold : ∀ (nbs : List String), (∀ nb ∈ nbs, nb ∈ g node) →
            ∀ (st0 : List String × List (List String)),
            (∀ c ∈ st0.2, c ∈ st.2 ∨ IsCycle g c) →
            ∀ c ∈ (nbs.foldl (fun st2 nb => dfsCycles g f nb (path ++ [node]) st2) st0).2,
              c ∈ st.2 ∨ IsCycle g c := by
          intro nbs
          induction nbs with
          | nil => intro _ st0 h0 c hc; exact h0 c hc
          | cons nb nbs ihn =>
            intro hnb st0 h0 c hc
            rw [List.foldl_cons] at hc
            refine ihn (fun x hx => hnb x (List.mem_cons_of_mem nb hx)) _ ?_ c hc
            intro c2 hc2
            have hchain3 : List.Chain' (EdgeTo g) ((path ++ [node]) ++ [nb]) := by
              rw [List.chain'_append]
              refine ⟨hchain, List.chain'_singleton nb, ?_⟩
              intro x hx y hy
              simp only [List.head?_cons, Option.mem_def, Option.some.injEq] at hy
              have hxl : x = node := by
                have hl := List.getLast?_append_cons path node []
                rw [hl] at hx
                simp only [List.getLast?_singleton, Option.mem_def,
                  Option.some.injEq] at hx
                exact hx.symm
              rw [hxl, ← hy]
              exact hnb nb (List.mem_cons_self nb nbs)
            rcases ih nb (path ++ [node]) st0 hchain3 c2 hc2 with h | h
            · exact h0 c2 h
            · exact Or.inr h
        exact hfold (g node) (fun nb h => h) (st.1 ++ [node], st.2)
          (fun c2 h => Or.inl h) c hc

theorem detectRequiresCycles_sound (spec : List (String × List String)) :
    ∀ c ∈ detectRequiresCycles spec, IsCycle (graphOf spec) c := by
  unfold detectRequiresCycles
  have hfold : ∀ (ks : List String) (st : List String × List (List String)),
      (∀ c ∈ st.2, IsCycle (graphOf spec) c) →
      ∀ c ∈ (ks.foldl
          (fun st k => dfsCycles (graphOf spec)
            ((spec.map (·.1) ++ spec.flatMap (·.2)).length + 1) k [] st) st).2,
        IsCycle (graphOf spec) c := by
    intro ks
    induction ks with
    | nil => intro st h c hc; exact h c hc
    | cons k ks ihk =>
      intro st h c hc
      rw [List.foldl_cons] at hc
      refine ihk _ ?_ c hc
      intro c2 hc2
      rcases dfsCycles_sound (graphOf spec) _ k [] st (by simp) c2 hc2 with h2 | h2
      · exact h c2 h2
      · exact h2
  intro c hc
  exact hfold (spec.map (·.1)) ([], []) (by simp) c hc

/-! ## Completeness of `detectRequiresCycles`: an empty result implies
acyclicity.  The proof instruments the search with a ghost post-order
list of finished nodes. -/

/-- Instrumented variant of `dfsCycles` that additionally records, in
post-order, the nodes whose search completed.  The first two components
compute exactly `dfsCycles`. -/
def dfsCyclesFin (g : String → List String) :
    Nat → String → List String → List String × List (List String) × List String →
      List String × List (List String) × List String
  | 0, _, _, st => st
  | fuel + 1, node, path, (visited, cycles, finished) =>
    if node ∈ path then (visited, cycles ++ [path.drop (path.indexOf node)], finished)
    else if node ∈ visited then (visited, cycles, finished)
    else
      let r := (g node).foldl (fun st nb => dfsCyclesFin g fuel nb (path ++ [node]) st)
        (visited ++ [node], cycles, finished)
      (r.1, r.2.1, r.2.2 ++ [node])

theorem dfsCyclesFin_proj (g : String → List String) :
    ∀ (fuel : Nat) (node : String) (path : List String)
      (st : List String × List (List String) × List String),
      (dfsCyclesFin g fuel node path st).1 = (dfsCycles g fuel node path (st.1, st.2.1)).1 ∧
      (dfsCyclesFin g fuel node path st).2.1 = (dfsCycles g fuel node path (st.1, st.2.1)).2 := by
  intro fuel
  induction fuel with
  | zero => intro node path st; exact ⟨rfl, rfl⟩
  | succ f ih =>
    intro node path st
    obtain ⟨vis, cyc, fin⟩ := st
    rw [dfsCyclesFin, dfsCycles]
    by_cases hp : node ∈ path
    · simp [if_pos hp]
    · rw [if_neg hp, if_neg hp]
      by_cases hv : node ∈ vis
      · simp [if_pos hv]
      · rw [if_neg hv, if_neg hv]
        have hfold : ∀ (nbs : List String) (st3 : List String × List (List String) × List String),
            ((nbs.foldl (fun st nb => dfsCyclesFin g f nb (path ++ [node]) st) st3).1,
             (nbs.foldl (fun st nb => dfsCyclesFin g f nb (path ++ [node]) st) st3).2.1) =
            nbs.foldl (fun st nb => dfsCycles g f nb (path ++ [node]) st) (st3.1, st3.2.1) := by
          intro nbs
          induction nbs with
          | nil => intro st3; rfl
          | cons nb nbs ihn =>
            intro st3
            rw [List.foldl_cons, List.foldl_cons, ihn]
            congr 1
            exact Prod.ext (ih nb (path ++ [node]) st3).1 (ih nb (path ++ [node]) st3).2
        have h := hfold (g node) (vis ++ [node], cyc, fin)
        exact ⟨congrArg Prod.fst h, congrArg Prod.snd h⟩

theorem dfsCyclesFin_mono (g : String → List String) :
    ∀ (fuel : Nat) (node : String) (path : List String)
      (st : List String × List (List String) × List String),
      (∃ dv, (dfsCyclesFin g fuel node path st).1 = st.1 ++ dv) ∧
      (∃ dc, (dfsCyclesFin g fuel node path st).2.1 = st.2.1 ++ dc) ∧
      (∃ df, (dfsCyclesFin g fuel node path st).2.2 = st.2.2 ++ df) := by
  intro fuel
  induction fuel with
  | zero =>
    intro node path st
    exact ⟨⟨[], by simp [dfsCyclesFin]⟩, ⟨[], by simp [dfsCyclesFin]⟩,
      ⟨[], by simp [dfsCyclesFin]⟩⟩
  | succ f ih =>
    intro node path st
    obtain ⟨vis, cyc, fin⟩ := st
    rw [dfsCyclesFin]
    by_cases hp : node ∈ path
    · rw [if_pos hp]
      exact ⟨⟨[], by simp⟩, ⟨_, rfl⟩, ⟨[], by simp⟩⟩
    · rw [if_neg hp]
      by_cases hv : node ∈ vis
      · rw [if_pos hv]
        exact ⟨⟨[], by simp⟩, ⟨[], by simp⟩, ⟨[], by simp⟩⟩
      · rw [if_neg hv]
        have hfold : ∀ (nbs : List String)
            (st3 : List String × List (List String) × List String),
            (∃ dv, (nbs.foldl (fun st nb => dfsCyclesFin g f nb (path ++ [node]) st) st3).1 =
              st3.1 ++ dv) ∧
            (∃ dc, (nbs.foldl (fun st nb => dfsCyclesFin g f nb (path ++ [node]) st) st3).2.1 =
              st3.2.1 ++ dc) ∧
            (∃ df, (nbs.foldl (fun st nb => dfsCyclesFin g f nb (path ++ [node]) st) st3).2.2 =
              st3.2.2 ++ df) := by
          intro nbs
          induction nbs with
          | nil => intro st3; exact ⟨⟨[], by simp⟩, ⟨[], by simp⟩, ⟨[], by simp⟩⟩
          | cons nb nbs ihn =>
            intro st3
            rw [List.foldl_cons]
            obtain ⟨⟨dv1, h1⟩, ⟨dc1, h2⟩, ⟨df1, h3⟩⟩ := ih nb (path ++ [node]) st3
            obtain ⟨⟨dv2, g1⟩, ⟨dc2, g2⟩, ⟨df2, g3⟩⟩ :=
              ihn (dfsCyclesFin g f nb (path ++ [node]) st3)
            exact ⟨⟨dv1 ++ dv2, by rw [g1, h1, List.append_assoc]⟩,
              ⟨dc1 ++ dc2, by rw [g2, h2, List.append_assoc]⟩,
              ⟨df1 ++ df2, by rw [g3, h3, List.append_assoc]⟩⟩
        obtain ⟨⟨dv, h1⟩, ⟨dc, h2⟩, ⟨df, h3⟩⟩ := hfold (g node) (vis ++ [node], cyc, fin)
        refine ⟨⟨node :: dv, by rw [h1]; simp⟩, ⟨dc, h2⟩, ⟨df ++ [node], ?_⟩⟩
        show ((g node).foldl (fun st nb => dfsCyclesFin g f nb (path ++ [node]) st)
          (vis ++ [node], cyc, fin)).2.2 ++ [node] = fin ++ (df ++ [node])
        rw [h3, List.append_assoc]

theorem countP_notMem_lt {U v : List String} {node : String} (hU : node ∈ U)
    (hv : node ∉ v) :
    U.countP (fun u => !(decide (u ∈ v ++ [node]))) <
      U.countP (fun u => !(decide (u ∈ v))) := by
  induction U with
  | nil => simp at hU
  | cons u U ihU =>
    rw [List.countP_cons, List.countP_cons]
    by_cases hu : u = node
    · have h1 : (!(decide (u ∈ v ++ [node]))) = false := by
        simp [hu]
      have h2 : (!(decide (u ∈ v))) = true := by
        simp [hu, hv]
      rw [h1, h2]
      simp only [if_false, if_true, Bool.false_eq_true]
      have hle : U.countP (fun u => !(decide (u ∈ v ++ [node]))) ≤
          U.countP (fun u => !(decide (u ∈ v))) := by
        refine List.countP_mono_left ?_
        intro a _ ha
        simp only [Bool.not_eq_true', decide_eq_false_iff_not] at ha ⊢
        intro hc
        exact ha (List.mem_append_left _ hc)
      omega
    · rcases List.mem_cons.mp hU with h | h
      · exact absurd h.symm hu
      · have heq : (!(decide (u ∈ v ++ [node]))) = (!(decide (u ∈ v))) := by
          by_cases huv : u ∈ v
          · simp [huv]
          · simp [huv, hu]
        rw [heq]
        have := ihU h
        omega

theorem dfsCyclesFin_foldl_mono (g : String → List String) (f : Nat) (p : List String) :
    ∀ (nbs : List String) (st3 : List String × List (List String) × List String),
      (∃ dv, (nbs.foldl (fun st nb => dfsCyclesFin g f nb p st) st3).1 = st3.1 ++ dv) ∧
      (∃ dc, (nbs.foldl (fun st nb => dfsCyclesFin g f nb p st) st3).2.1 = st3.2.1 ++ dc) ∧
      (∃ df, (nbs.foldl (fun st nb => dfsCyclesFin g f nb p st) st3).2.2 = st3.2.2 ++ df) := by
  intro nbs
  induction nbs with
  | nil => intro st3; exact ⟨⟨[], by simp⟩, ⟨[], by simp⟩, ⟨[], by simp⟩⟩
  | cons nb nbs ihn =>
    intro st3
    rw [List.foldl_cons]
    obtain ⟨⟨dv1, h1⟩, ⟨dc1, h2⟩, ⟨df1, h3⟩⟩ := dfsCyclesFin_mono g f nb p st3
    obtain ⟨⟨dv2, g1⟩, ⟨dc2, g2⟩, ⟨df2, g3⟩⟩ := ihn (dfsCyclesFin g f nb p st3)
    exact ⟨⟨dv1 ++ dv2, by rw [g1, h1, List.append_assoc]⟩,
      ⟨dc1 ++ dc2, by rw [g2, h2, List.append_assoc]⟩,
      ⟨df1 ++ df2, by rw [g3, h3, List.append_assoc]⟩⟩

/-- Post-order property of a finished list: every member has all its
successors strictly earlier in the list. -/
def RankedClosed (g : String → List String) (l : List String) : Prop :=
  ∀ pre x post, l = pre ++ x :: post → ∀ r ∈ g x, r ∈ pre

theorem rankedClosed_nil (g : String → List String) : RankedClosed g [] := by
  intro pre x post h
  exact absurd h (by simp)

theorem concat_eq_concat {α : Type} {l1 l2 : List α} {a b : α}
    (h : l1 ++ [a] = l2 ++ [b]) : l1 = l2 ∧ a = b := by
  have hl := List.append_inj' h rfl
  exact ⟨hl.1, by simpa using hl.2⟩

theorem rankedClosed_append {g : String → List String} {l : List String} {x : String}
    (hl : RankedClosed g l) (hx : ∀ r ∈ g x, r ∈ l) : RankedClosed g (l ++ [x]) := by
  intro pre y post hdec r hr
  cases post using List.reverseRecOn with
  | nil =>
    obtain ⟨h1, h2⟩ := concat_eq_concat hdec
    rw [h1, h2] at hx
    exact hx r hr
  | append_singleton ps b _ =>
    have hdec2 : l ++ [x] = (pre ++ y :: ps) ++ [b] := by
      rw [hdec]; simp
    obtain ⟨h1, _⟩ := concat_eq_concat hdec2
    exact hl pre y ps h1 r hr

theorem indexOf_lt_of_mem_take {l : List String} :
    ∀ {i : Nat} {b : String}, b ∈ l.take i → l.indexOf b < i := by
  induction l with
  | nil => intro i b h; simp at h
  | cons a l ih =>
    intro i b h
    cases i with
    | zero => simp at h
    | succ i =>
      rw [List.take_succ_cons] at h
      rcases List.mem_cons.mp h with h | h
      · rw [h, List.indexOf_cons_self]
        exact Nat.succ_pos i
      · by_cases hab : a = b
        · rw [hab, List.indexOf_cons_self]
          exact Nat.succ_pos i
        · rw [List.indexOf_cons_ne l (by simpa using hab)]
          exact Nat.succ_lt_succ (ih h)

theorem edge_lt_of_rankedClosed {g : String → List String} {l : List String}
    {a b : String} (hrc : RankedClosed g l) (ha : a ∈ l) (hb : b ∈ g a) :
    b ∈ l ∧ l.indexOf b < l.indexOf a := by
  have hidx : l.indexOf a < l.length := List.indexOf_lt_length.mpr ha
  have hdec : l = l.take (l.indexOf a) ++ a :: l.drop (l.indexOf a + 1) := by
    conv_lhs => rw [← List.take_append_drop (l.indexOf a) l]
    rw [List.drop_eq_getElem_cons hidx, List.getElem_indexOf hidx]
  have hpre := hrc _ a _ hdec b hb
  constructor
  · exact List.mem_of_mem_take hpre
  · exact indexOf_lt_of_mem_take hpre

theorem not_transGen_self_of_rankedClosed {g : String → List String} {l : List String}
    (hrc : RankedClosed g l) : ∀ x ∈ l, ¬Relation.TransGen (EdgeTo g) x x := by
  have hstep : ∀ a b, Relation.TransGen (EdgeTo g) a b → a ∈ l →
      b ∈ l ∧ l.indexOf b < l.indexOf a := by
    intro a b htg
    induction htg with
    | single h => intro ha; exact edge_lt_of_rankedClosed hrc ha h
    | tail _ hbc ih =>
      intro ha
      obtain ⟨hbl, hlt⟩ := ih ha
      obtain ⟨hcl, hlt2⟩ := edge_lt_of_rankedClosed hrc hbl hbc
      exact ⟨hcl, Nat.lt_trans hlt2 hlt⟩
  intro x hx htg
  have := (hstep x x htg hx).2
  omega

theorem dfsCyclesFin_main (g : String → List String) (U : List String)
    (hgU : ∀ x, ∀ r ∈ g x, r ∈ U) :
    ∀ (fuel : Nat) (node : String) (path visited : List String)
      (cycles : List (List String)) (finished : List String)
      (v2 : List String) (c2 : List (List String)) (f2 : List String),
      node ∈ U → visited ⊆ U →
      U.countP (fun u => !(decide (u ∈ visited))) < fuel →
      (∀ x, x ∈ visited ↔ x ∈ finished ∨ x ∈ path) →
      RankedClosed g finished → finished.Nodup →
      dfsCyclesFin g fuel node path (visited, cycles, finished) = (v2, c2, f2) →
      c2 = cycles →
      (∀ x, x ∈ v2 ↔ x ∈ f2 ∨ x ∈ path) ∧ RankedClosed g f2 ∧ f2.Nodup ∧
        v2 ⊆ U ∧ node ∈ v2 ∧ ∃ d, f2 = finished ++ d ∧ ∀ x ∈ d, x ∉ visited := by
  intro fuel
  induction fuel with
  | zero =>
    intro node path visited cycles finished v2 c2 f2 _ _ hcount _ _ _ _ _
    exact absurd hcount (Nat.not_lt_zero _)
  | succ f ih =>
    intro node path visited cycles finished v2 c2 f2 hnodeU hvisU hcount hinv hrc hnd
      hrun hc2
    rw [dfsCyclesFin] at hrun
    by_cases hp : node ∈ path
    · rw [if_pos hp] at hrun
      simp only [Prod.mk.injEq] at hrun
      have hlen := congrArg List.length (hrun.2.1.trans hc2)
      simp at hlen
    · rw [if_neg hp] at hrun
      by_cases hv : node ∈ visited
      · rw [if_pos hv] at hrun
        simp only [Prod.mk.injEq] at hrun
        obtain ⟨h1, _, h3⟩ := hrun
        subst h1; subst h3
        refine ⟨hinv, hrc, hnd, hvisU, hv, ⟨[], by simp⟩⟩
      · rw [if_neg hv] at hrun
        simp only [Prod.mk.injEq] at hrun
        obtain ⟨hv2, hcc2, hff2⟩ := hrun
        -- the fold over the successors of `node`
        have hfold : ∀ (nbs : List String), (∀ nb ∈ nbs, nb ∈ U) →
            ∀ (v : List String) (c : List (List String)) (fi : List String),
              v ⊆ U → U.countP (fun u => !(decide (u ∈ v))) < f →
              (∀ x, x ∈ v ↔ x ∈ fi ∨ x ∈ (path ++ [node])) →
              RankedClosed g fi → fi.Nodup →
              ∀ v3 c3 f3,
                nbs.foldl (fun st nb => dfsCyclesFin g f nb (path ++ [node]) st)
                  (v, c, fi) = (v3, c3, f3) →
                c3 = c →
                (∀ x, x ∈ v3 ↔ x ∈ f3 ∨ x ∈ (path ++ [node])) ∧ RankedClosed g f3 ∧
                  f3.Nodup ∧ v3 ⊆ U ∧ (∃ d, f3 = fi ++ d ∧ ∀ x ∈ d, x ∉ v) ∧
                  (∃ dv, v3 = v ++ dv) ∧ (∀ nb ∈ nbs, nb ∈ f3) := by
          intro nbs
          induction nbs with
          | nil =>
            intro _ v c fi hvU hcv hinvv hrcf hndf v3 c3 f3 hfd hc3
            rw [List.foldl_nil] at hfd
            simp only [Prod.mk.injEq] at hfd
            obtain ⟨h1, _, h3⟩ := hfd
            subst h1; subst h3
            exact ⟨hinvv, hrcf, hndf, hvU, ⟨[], by simp⟩, ⟨[], by simp⟩, by simp⟩
          | cons nb nbs ihn =>
            intro hnbsU v c fi hvU hcv hinvv hrcf hndf v3 c3 f3 hfd hc3
            rw [List.foldl_cons] at hfd
            rcases hsub : dfsCyclesFin g f nb (path ++ [node]) (v, c, fi) with
              ⟨vs, cs, fs⟩
            rw [hsub] at hfd
            -- the recorded-cycles list is unchanged at every step
            obtain ⟨_, ⟨dc1, hdc1⟩, _⟩ := dfsCyclesFin_mono g f nb (path ++ [node]) (v, c, fi)
            rw [hsub] at hdc1
            simp only at hdc1
            obtain ⟨_, ⟨dc2, hdc2⟩, _⟩ :=
              dfsCyclesFin_foldl_mono g f (path ++ [node]) nbs (vs, cs, fs)
            rw [hfd] at hdc2
            simp only at hdc2
            have hnil : dc1 = [] ∧ dc2 = [] := by
              have : c = (c ++ dc1) ++ dc2 := by rw [← hdc1, ← hdc2, hc3]
              have hlen := congrArg List.length this
              simp at hlen
              obtain ⟨ha, hb⟩ := hlen
              exact ⟨ha, hb⟩
            have hcs : cs = c := by rw [hdc1, hnil.1, List.append_nil]
            by_cases hnbp : nb ∈ path ++ [node]
            · -- a revisit of a node on the current path would record a cycle
              exfalso
              cases f with
              | zero => exact absurd hcv (Nat.not_lt_zero _)
              | succ f1 =>
                rw [dfsCyclesFin, if_pos hnbp] at hsub
                simp only [Prod.mk.injEq] at hsub
                have := congrArg List.length (hsub.2.1.trans hcs)
                simp at this
            · -- apply the one-call induction hypothesis
              have hsubmain := ih nb (path ++ [node]) v c fi vs cs fs
                (hnbsU nb (List.mem_cons_self nb nbs)) hvU hcv hinvv hrcf hndf hsub hcs
              obtain ⟨hinvs, hrcs, hnds, hvsU, hnbvs, ⟨ds, hfs, hdsv⟩⟩ := hsubmain
              have hnbfs : nb ∈ fs := by
                rcases (hinvs nb).mp hnbvs with h | h
                · exact h
                · exact absurd h hnbp
              obtain ⟨⟨dv1, hdv1p⟩, _, _⟩ :=
                dfsCyclesFin_mono g f nb (path ++ [node]) (v, c, fi)
              rw [hsub] at hdv1p
              have hdv1 : vs = v ++ dv1 := hdv1p
              have hcvs : U.countP (fun u => !(decide (u ∈ vs))) < f := by
                calc U.countP (fun u => !(decide (u ∈ vs)))
                    ≤ U.countP (fun u => !(decide (u ∈ v))) := by
                      refine List.countP_mono_left ?_
                      intro a _ ha
                      simp only [Bool.not_eq_true', decide_eq_false_iff_not] at ha ⊢
                      intro hc
                      exact ha (by rw [hdv1]; exact List.mem_append_left _ hc)
                  _ < f := hcv
              have hrest := ihn (fun x hx => hnbsU x (List.mem_cons_of_mem nb hx))
                vs c fs hvsU hcvs hinvs hrcs hnds v3 c3 f3 (by rw [hcs] at hfd; exact hfd) hc3
              obtain ⟨hinv3, hrc3, hnd3, hv3U, ⟨d2, hf3, hd2⟩, ⟨dv2, hdv2⟩, hnbs3⟩ := hrest
              refine ⟨hinv3, hrc3, hnd3, hv3U, ?_, ?_, ?_⟩
              · refine ⟨ds ++ d2, by rw [hf3, hfs, List.append_assoc], ?_⟩
                intro x hx
                rcases List.mem_append.mp hx with h | h
                · exact hdsv x h
                · intro hc
                  exact hd2 x h (by rw [hdv1]; exact List.mem_append_left _ hc)
              · exact ⟨dv1 ++ dv2, by rw [hdv2, hdv1, List.append_assoc]⟩
              · intro nb2 hnb2
                rcases List.mem_cons.mp hnb2 with h | h
                · rw [h, hf3]
                  exact List.mem_append_left _ hnbfs
                · exact hnbs3 nb2 h
        -- instantiate the fold lemma for the successors of `node`
        rcases hflr : (g node).foldl (fun st nb => dfsCyclesFin g f nb (path ++ [node]) st)
            (visited ++ [node], cycles, finished) with ⟨v3, c3, f3⟩
        have hv2v3 : v2 = v3 := by rw [← hv2, hflr]
        have hc2c3 : c2 = c3 := by rw [← hcc2, hflr]
        have hf2f3 : f2 = f3 ++ [node] := by rw [← hff2, hflr]
        have hv1U : (visited ++ [node]) ⊆ U := by
          intro x hx
          rcases List.mem_append.mp hx with h | h
          · exact hvisU h
          · rw [List.mem_singleton.mp h]; exact hnodeU
        have hcv1 : U.countP (fun u => !(decide (u ∈ visited ++ [node]))) < f := by
          have hstrict := countP_notMem_lt hnodeU hv (U := U)
          omega
        have hinv1 : ∀ x, x ∈ visited ++ [node] ↔ x ∈ finished ∨ x ∈ path ++ [node] := by
          intro x
          simp only [List.mem_append, List.mem_singleton, hinv x]
          tauto
        have hmain := hfold (g node) (hgU node) (visited ++ [node]) cycles finished
          hv1U hcv1 hinv1 hrc hnd v3 c3 f3 hflr (by rw [← hc2c3]; exact hc2)
        obtain ⟨hinv3, hrc3, hnd3, hv3U, ⟨d3, hf3d, hd3⟩, ⟨dv3, hdv3⟩, hgn3⟩ := hmain
        have hnodef3 : node ∉ f3 := by
          intro hc
          rw [hf3d] at hc
          rcases List.mem_append.mp hc with h | h
          · exact hv ((hinv node).mpr (Or.inl h))
          · exact hd3 node h (List.mem_append_right _ (List.mem_singleton.mpr rfl))
        refine ⟨?_, ?_, ?_, ?_, ?_, ?_⟩
        · intro x
          rw [hv2v3, hf2f3]
          rw [hinv3 x]
          simp only [List.mem_append, List.mem_singleton]
          tauto
        · rw [hf2f3]
          exact rankedClosed_append hrc3 hgn3
        · rw [hf2f3]
          refine List.Nodup.append hnd3 (by simp) ?_
          intro x hx hx2
          rw [List.mem_singleton.mp hx2] at hx
          exact hnodef3 hx
        · rw [hv2v3]; exact hv3U
        · rw [hv2v3, hdv3]
          exact List.mem_append_left _ (List.mem_append_right _ (List.mem_singleton.mpr rfl))
        · refine ⟨d3 ++ [node], by rw [hf2f3, hf3d, List.append_assoc], ?_⟩
          intro x hx
          rcases List.mem_append.mp hx with h | h
          · intro hc
            exact hd3 x h (List.mem_append_left _ hc)
          · rw [List.mem_singleton.mp h]
            exact hv

theorem dfsCyclesFin_foldl_proj (g : String → List String) (fuel : Nat) :
    ∀ (ks : List String) (st3 : List String × List (List String) × List String),
      ((ks.foldl (fun st k => dfsCyclesFin g fuel k [] st) st3).1,
        (ks.foldl (fun st k => dfsCyclesFin g fuel k [] st) st3).2.1) =
        ks.foldl (fun st k => dfsCycles g fuel k [] st) (st3.1, st3.2.1) := by
  intro ks
  induction ks with
  | nil => intro st3; rfl
  | cons k ks ihk =>
    intro st3
    rw [List.foldl_cons, List.foldl_cons, ihk]
    congr 1
    exact Prod.ext (dfsCyclesFin_proj g fuel k [] st3).1 (dfsCyclesFin_proj g fuel k [] st3).2

theorem graphOf_subset_universe (spec : List (String × List String)) :
    ∀ x, ∀ r ∈ graphOf spec x, r ∈ spec.map (·.1) ++ spec.flatMap (·.2) := by
  intro x r hr
  unfold graphOf at hr
  cases hfind : spec.find? fun e => e.1 == x with
  | none => rw [hfind] at hr; simp at hr
  | some e =>
    rw [hfind] at hr
    have hr2 : r ∈ e.2 := hr
    refine List.mem_append_right _ ?_
    exact List.mem_flatMap.mpr ⟨e, List.mem_of_find?_eq_some hfind, hr2⟩

theorem mem_keys_of_graphOf_ne_nil (spec : List (String × List String)) (x : String)
    (h : graphOf spec x ≠ []) : x ∈ spec.map (·.1) := by
  unfold graphOf at h
  cases hfind : spec.find? fun e => e.1 == x with
  | none => rw [hfind] at h; simp at h
  | some e =>
    have he := List.mem_of_find?_eq_some hfind
    have hex : e.1 = x := by simpa using List.find?_some hfind
    exact List.mem_map.mpr ⟨e, he, hex⟩

theorem detectRequiresCycles_complete (spec : List (String × List String))
    (h : detectRequiresCycles spec = []) : Acyclic (graphOf spec) := by
  classical
  set g := graphOf spec with hg
  set U := spec.map (·.1) ++ spec.flatMap (·.2) with hU
  set fuel := U.length + 1 with hfuel
  have hgU : ∀ x, ∀ r ∈ g x, r ∈ U := graphOf_subset_universe spec
  -- the instrumented top-level fold over the keys
  have htop : ∀ (ks : List String), (∀ k ∈ ks, k ∈ U) →
      ∀ (vis : List String) (cyc : List (List String)) (fin : List String)
        (v3 : List String) (c3 : List (List String)) (f3 : List String),
        vis ⊆ U → (∀ x, x ∈ vis ↔ x ∈ fin) → RankedClosed g fin → fin.Nodup →
        ks.foldl (fun st k => dfsCyclesFin g fuel k [] st) (vis, cyc, fin) = (v3, c3, f3) →
        c3 = cyc →
        (∀ x, x ∈ v3 ↔ x ∈ f3) ∧ RankedClosed g f3 ∧ f3.Nodup ∧ v3 ⊆ U ∧
          (∀ k ∈ ks, k ∈ f3) := by
    intro ks
    induction ks with
    | nil =>
      intro _ vis cyc fin v3 c3 f3 hvU hinvv hrcf hndf hfd _
      rw [List.foldl_nil] at hfd
      simp only [Prod.mk.injEq] at hfd
      obtain ⟨h1, _, h3⟩ := hfd
      subst h1; subst h3
      exact ⟨hinvv, hrcf, hndf, hvU, by simp⟩
    | cons k ks ihk =>
      intro hksU vis cyc fin v3 c3 f3 hvU hinvv hrcf hndf hfd hc3
      rw [List.foldl_cons] at hfd
      rcases hsub : dfsCyclesFin g fuel k [] (vis, cyc, fin) with ⟨vs, cs, fs⟩
      rw [hsub] at hfd
      obtain ⟨_, ⟨dc1, hdc1p⟩, _⟩ := dfsCyclesFin_mono g fuel k [] (vis, cyc, fin)
      rw [hsub] at hdc1p
      have hdc1 : cs = cyc ++ dc1 := hdc1p
      obtain ⟨_, ⟨dc2, hdc2p⟩, _⟩ := dfsCyclesFin_foldl_mono g fuel [] ks (vs, cs, fs)
      rw [hfd] at hdc2p
      have hdc2 : c3 = cs ++ dc2 := hdc2p
      have hnil : dc1 = [] ∧ dc2 = [] := by
        have hcc : cyc = (cyc ++ dc1) ++ dc2 := by rw [← hdc1, ← hdc2, hc3]
        have hlen := congrArg List.length hcc
        simp at hlen
        exact ⟨hlen.1, hlen.2⟩
      have hcs : cs = cyc := by rw [hdc1, hnil.1, List.append_nil]
      have hcount : U.countP (fun u => !(decide (u ∈ vis))) < fuel := by
        have := List.countP_le_length (l := U) (p := fun u => !(decide (u ∈ vis)))
        omega
      have hinv0 : ∀ x, x ∈ vis ↔ x ∈ fin ∨ x ∈ ([] : List String) := by
        intro x; rw [hinvv x]; simp
      have hmain := dfsCyclesFin_main g U hgU fuel k [] vis cyc fin vs cs fs
        (hksU k (List.mem_cons_self k ks)) hvU hcount hinv0 hrcf hndf hsub hcs
      obtain ⟨hinvs, hrcs, hnds, hvsU, hkvs, ⟨ds, hfs, _⟩⟩ := hmain
      have hinvs2 : ∀ x, x ∈ vs ↔ x ∈ fs := by
        intro x
        rw [hinvs x]; simp
      have hrest := ihk (fun x hx => hksU x (List.mem_cons_of_mem k hx)) vs cyc fs
        v3 c3 f3 hvsU hinvs2 hrcs hnds (by rw [hcs] at hfd; exact hfd) hc3
      obtain ⟨hinv3, hrc3, hnd3, hv3U, hks3⟩ := hrest
      refine ⟨hinv3, hrc3, hnd3, hv3U, ?_⟩
      intro k2 hk2
      rcases List.mem_cons.mp hk2 with h2 | h2
      · -- k itself finished; finished lists grow along the fold
        obtain ⟨_, _, ⟨df2, hdf2p⟩⟩ := dfsCyclesFin_foldl_mono g fuel [] ks (vs, cs, fs)
        rw [hfd] at hdf2p
        have hdf2 : f3 = fs ++ df2 := hdf2p
        rw [h2, hdf2]
        exact List.mem_append_left _ ((hinvs2 k).mp hkvs)
      · exact hks3 k2 h2
  -- run the instrumented fold from the empty state
  rcases hrun : (spec.map (·.1)).foldl (fun st k => dfsCyclesFin g fuel k [] st)
      ([], [], []) with ⟨v3, c3, f3⟩
  have hproj := dfsCyclesFin_foldl_proj g fuel (spec.map (·.1)) ([], [], [])
  rw [hrun] at hproj
  have hc3 : c3 = [] := by
    have hplain : ((spec.map (·.1)).foldl (fun st k => dfsCycles g fuel k [] st)
        ([], [])).2 = [] := by
      have hdet : detectRequiresCycles spec =
          ((spec.map (·.1)).foldl (fun st k => dfsCycles g fuel k [] st) ([], [])).2 := by
        rw [detectRequiresCycles]
      rw [← hdet]
      exact h
    have := congrArg Prod.snd hproj
    simp only at this
    rw [this, hplain]
  have hkeysU : ∀ k ∈ spec.map (·.1), k ∈ U := by
    intro k hk
    exact List.mem_append_left _ hk
  have hfinal := htop (spec.map (·.1)) hkeysU [] [] [] v3 c3 f3 (by simp)
    (by simp) (rankedClosed_nil g) (by simp) hrun hc3
  obtain ⟨_, hrc3, _, _, hkeys3⟩ := hfinal
  -- no cycle can exist
  intro c hc
  obtain ⟨x, htg⟩ := transGen_self_of_isCycle hc
  have hxkeys : x ∈ spec.map (·.1) := by
    obtain ⟨y, hxy, _⟩ := Relation.TransGen.head'_iff.mp htg
    refine mem_keys_of_graphOf_ne_nil spec x ?_
    intro hnil
    rw [hg] at hxy
    unfold EdgeTo at hxy
    rw [hnil] at hxy
    simp at hxy
  exact not_transGen_self_of_rankedClosed hrc3 x (hkeys3 x hxkeys) htg

/-! ## The configuration error of `validateToolSpec` names the detected
cycle fields -/

theorem intercalate_go_substring (s f : String) :
    ∀ (l : List String) (acc : String),
      ((∃ pre post, acc = pre ++ f ++ post) ∨ f ∈ l) →
      ∃ pre post, String.intercalate.go acc s l = pre ++ f ++ post := by
  intro l
  induction l with
  | nil =>
    intro acc h
    rcases h with h | h
    · exact h
    · simp at h
  | cons a as ih =>
    intro acc h
    show ∃ pre post, String.intercalate.go (acc ++ s ++ a) s as = pre ++ f ++ post
    rcases h with ⟨pre, post, hacc⟩ | h
    · refine ih (acc ++ s ++ a) (Or.inl ⟨pre, post ++ s ++ a, ?_⟩)
      simp [hacc, String.append_assoc]
    · rcases List.mem_cons.mp h with h | h
      · refine ih (acc ++ s ++ a) (Or.inl ⟨acc ++ s, "", ?_⟩)
        rw [← h, String.append_empty]
      · exact ih (acc ++ s ++ a) (Or.inr h)

theorem intercalate_substring {f : String} {l : List String} (s : String) (hf : f ∈ l) :
    ∃ pre post, String.intercalate s l = pre ++ f ++ post := by
  cases l with
  | nil => simp at hf
  | cons a as =>
    show ∃ pre post, String.intercalate.go a s as = pre ++ f ++ post
    rcases List.mem_cons.mp hf with h | h
    · exact intercalate_go_substring s f as a (Or.inl ⟨"", "", by
        rw [← h, String.append_empty, String.empty_append]⟩)
    · exact intercalate_go_substring s f as a (Or.inr h)

theorem validateToolSpec_ok_iff (spec : ToolSpec) :
    validateToolSpec spec = .ok () ↔
      detectRequiresCycles (spec.map fun e => (e.1, e.2.requires)) = [] := by
  unfold validateToolSpec
  by_cases h : detectRequiresCycles (spec.map fun e => (e.1, e.2.requires)) = []
  · rw [if_pos h]
    simp [h]
  · rw [if_neg h]
    simp [h]

theorem validateToolSpec_error (spec : ToolSpec)
    (h : detectRequiresCycles (spec.map fun e => (e.1, e.2.requires)) ≠ []) :
    validateToolSpec spec = .error ("Cycle detected in requires graph: " ++
      String.intercalate "; "
        ((detectRequiresCycles (spec.map fun e => (e.1, e.2.requires))).map
          (String.intercalate " -> "))) := by
  unfold validateToolSpec
  rw [if_neg h]

/-- C7: for every field specification collection whose `requires` graph
contains at least one cycle (of any length, including self-loops and
multiple disjoint cycles), finalization throws: `detectRequiresCycles`
returns a non-empty list and `validateToolSpec` returns a configuration
error whose message names every field of a detected cycle as a
`field -> field` chain; for every acyclic collection,
`detectRequiresCycles` returns the empty list and `validateToolSpec`
does not throw. -/
theorem claim7_cycle_detection (spec : ToolSpec) :
    ((∃ c, IsCycle (graphOf (spec.map fun e => (e.1, e.2.requires))) c) →
      detectRequiresCycles (spec.map fun e => (e.1, e.2.requires)) ≠ [] ∧
      ∃ msg, validateToolSpec spec = .error msg ∧
        ∃ c, c ∈ detectRequiresCycles (spec.map fun e => (e.1, e.2.requires)) ∧
          IsCycle (graphOf (spec.map fun e => (e.1, e.2.requires))) c ∧
          ∀ f ∈ c, ∃ pre post, msg = pre ++ f ++ post) ∧
    (Acyclic (graphOf (spec.map fun e => (e.1, e.2.requires))) →
      detectRequiresCycles (spec.map fun e => (e.1, e.2.requires)) = [] ∧
      validateToolSpec spec = .ok ()) := by
  constructor
  · rintro ⟨c0, hc0⟩
    have hne : detectRequiresCycles (spec.map fun e => (e.1, e.2.requires)) ≠ [] := by
      intro hnil
      exact detectRequiresCycles_complete _ hnil c0 hc0
    refine ⟨hne, _, validateToolSpec_error spec hne, ?_⟩
    rcases hdet : detectRequiresCycles (spec.map fun e => (e.1, e.2.requires)) with
      _ | ⟨c, t⟩
    · exact absurd hdet hne
    · refine ⟨c, by rw [hdet]; exact List.mem_cons_self c t, ?_, ?_⟩
      · have := detectRequiresCycles_sound (spec.map fun e => (e.1, e.2.requires)) c
        rw [hdet] at this
        exact this (List.mem_cons_self c t)
      · intro f hf
        obtain ⟨p1, q1, h1⟩ := intercalate_substring (l :=
            (detectRequiresCycles (spec.map fun e => (e.1, e.2.requires))).map
              (String.intercalate " -> ")) "; " (by
          refine List.mem_map.mpr ⟨c, ?_, rfl⟩
          rw [hdet]
          exact List.mem_cons_self c t)
        obtain ⟨p2, q2, h2⟩ := intercalate_substring (l := c) " -> " hf
        refine ⟨"Cycle detected in requires graph: " ++ p1 ++ p2, q2 ++ q1, ?_⟩
        rw [h1, h2]
        simp [String.append_assoc]
  · intro hacyc
    have hnil : detectRequiresCycles (spec.map fun e => (e.1, e.2.requires)) = [] := by
      rcases hdet : detectRequiresCycles (spec.map fun e => (e.1, e.2.requires)) with
        _ | ⟨c, t⟩
      · exact hdet
      · exfalso
        have hsound := detectRequiresCycles_sound (spec.map fun e => (e.1, e.2.requires)) c
        rw [hdet] at hsound
        exact hacyc c (hsound (List.mem_cons_self c t))
    exact ⟨hnil, (validateToolSpec_ok_iff spec).mpr hnil⟩

theorem claim7_cycle_detection_witness :
    (detectRequiresCycles [("a", ["a"])] ≠ [] ∧
      ∃ msg, validateToolSpec [("a", ⟨["a"], fun _ _ => ParamResult.okPlain⟩)] =
          .error msg ∧
        ∃ c, c ∈ detectRequiresCycles [("a", ["a"])] ∧
          IsCycle (graphOf [("a", ["a"])]) c ∧
          ∀ f ∈ c, ∃ pre post, msg = pre ++ f ++ post) ∧
    (detectRequiresCycles [("b", [])] = [] ∧
      validateToolSpec [("b", ⟨[], fun _ _ => ParamResult.okPlain⟩)] = .ok ()) := by
  constructor
  · refine (claim7_cycle_detection
      [("a", ⟨["a"], fun _ _ => ParamResult.okPlain⟩)]).1 ⟨["a"], ?_⟩
    exact (show IsCycle (graphOf [("a", ["a"])]) ["a"] from
      List.Chain.cons (by decide) List.Chain.nil)
  · exact (claim7_cycle_detection [("b", ⟨[], fun _ _ => ParamResult.okPlain⟩)]).2
      (detectRequiresCycles_complete [("b", [])] (by decide))

/-! ## Characterisation of `toposortFields`: Kahn's algorithm with the
ready queue kept sorted equals the canonical "emit the lexicographically
least ready field" sequence. -/

/-- A field is ready to be emitted after `order`: not yet emitted, and
every entry of its `requires` names a declared field already emitted. -/
def eligibleB (keys : List String) (g : String → List String) (order : List String)
    (x : String) : Bool :=
  !(decide (x ∈ order)) && (g x).all fun r => decide (r ∈ keys) && decide (r ∈ order)

/-- The sorted list of fields ready after `order`. -/
def canonicalNext (keys : List String) (g : String → List String)
    (order : List String) : List String :=
  List.insertionSort SLe (keys.filter (eligibleB keys g order))

/-- Reference sequence: repeatedly emit the least ready field. -/
def canonicalFrom (keys : List String) (g : String → List String) :
    Nat → List String → List String
  | 0, order => order
  | fuel + 1, order =>
    match canonicalNext keys g order with
    | [] => order
    | m :: _ => canonicalFrom keys g fuel (order ++ [m])

/-- The canonical topological order of a specification. -/
def canonicalKahn (keys : List String) (g : String → List String) : List String :=
  canonicalFrom keys g (keys.length + 1) []

theorem count_le_countP_of {l : List String} {a : String} {p : String → Bool}
    (hp : p a = true) : l.count a ≤ l.countP p := by
  rw [List.count]
  refine List.countP_mono_left ?_
  intro x _ hx
  rw [beq_iff_eq] at hx
  rw [hx]
  exact hp

theorem countP_split_at {l : List String} {a : String} {p q : String → Bool}
    (hne : ∀ r, r ≠ a → p r = q r) (hpa : p a = true) (hqa : q a = false) :
    l.countP p = l.countP q + l.count a := by
  induction l with
  | nil => simp
  | cons x l ih =>
    rw [List.countP_cons, List.countP_cons, List.count_cons]
    by_cases hx : x = a
    · subst hx
      simp only [hpa, hqa]
      simp
      omega
    · rw [hne x hx]
      have hbeq : (x == a) = false := by simpa using hx
      rw [hbeq]
      simp only [Bool.false_eq_true, if_false]
      omega

theorem count_flatMap_dependents (g : String → List String) (current : String) :
    ∀ (keys : List String), keys.Nodup → ∀ x,
      (keys.flatMap fun k => ((g k).filter fun r2 => r2 == current).map fun _ => k).count x =
        if x ∈ keys then (g x).count current else 0 := by
  intro keys
  induction keys with
  | nil => intro _ x; simp
  | cons k ks ih =>
    intro hknd x
    rw [List.nodup_cons] at hknd
    rw [List.flatMap_cons, List.count_append, ih hknd.2 x]
    have hcount_inner : (((g k).filter fun r2 => r2 == current).map fun _ => k).count x =
        if x = k then (g k).count current else 0 := by
      rw [List.count, List.countP_map]
      by_cases hxk : x = k
      · rw [if_pos hxk]
        have heq : ((fun b => b == x) ∘ (fun _ : String => k)) = fun _ => true := by
          funext r
          simp [Function.comp, hxk]
        rw [heq]
        have hlen : ∀ (l : List String), l.countP (fun _ => true) = l.length := by
          intro l
          induction l with
          | nil => rfl
          | cons y l ihl => rw [List.countP_cons, ihl]; simp
        rw [hlen]
        exact (List.countP_eq_length_filter _ _).symm
      · rw [if_neg hxk]
        have heq : ((fun b => b == x) ∘ (fun _ : String => k)) = fun _ => false := by
          funext r
          simp only [Function.comp, beq_eq_false_iff_ne, ne_eq]
          exact fun hc => hxk hc.symm
        rw [heq]
        simp
    rw [hcount_inner]
    by_cases hxk : x = k
    · subst hxk
      rw [if_pos rfl, if_neg hknd.1, if_pos (List.mem_cons_self x ks)]
      omega
    · rw [if_neg hxk]
      by_cases hxks : x ∈ ks
      · rw [if_pos hxks, if_pos (List.mem_cons_of_mem k hxks)]
        omega
      · rw [if_neg hxks, if_neg (by
          intro hc
          rcases List.mem_cons.mp hc with h | h
          · exact hxk h
          · exact hxks h)]

theorem count_dependentsOf {keys : List String} (g : String → List String)
    {current : String} (hknd : keys.Nodup) (hcur : current ∈ keys) (x : String) :
    (dependentsOf keys g current).count x =
      if x ∈ keys then (g x).count current else 0 := by
  unfold dependentsOf
  rw [if_pos hcur]
  exact count_flatMap_dependents g current keys hknd x

theorem kahnFold :
    ∀ (ds : List String) (d : String → Nat) (r : List String),
      (∀ x, ds.count x ≤ d x) →
      (∀ x, d x ≠ 0 → x ∉ r) →
      r.Sorted SLe → r.Nodup →
      (∀ x, (ds.foldl kahnStep (d, r)).1 x = d x - ds.count x) ∧
      (ds.foldl kahnStep (d, r)).2.Sorted SLe ∧
      (ds.foldl kahnStep (d, r)).2.Nodup ∧
      (∀ x, x ∈ (ds.foldl kahnStep (d, r)).2 ↔
        x ∈ r ∨ (d x ≠ 0 ∧ ds.count x = d x)) := by
  intro ds
  induction ds with
  | nil =>
    intro d r _ _ hsort hnd
    refine ⟨fun x => by simp, hsort, hnd, fun x => ?_⟩
    simp only [List.foldl_nil, List.count_nil]
    constructor
    · exact Or.inl
    · rintro (h | ⟨hne, hz⟩)
      · exact h
      · exact absurd hz.symm hne
  | cons dep ds ih =>
    intro d r hcnt hdisj hsort hnd
    rw [List.foldl_cons]
    have hdep1 : 1 ≤ d dep := by
      have := hcnt dep
      rw [List.count_cons] at this
      simp at this
      omega
    have hstep : kahnStep (d, r) dep =
        ((fun x => if x == dep then d dep - 1 else d x),
          if d dep - 1 = 0 then List.insertionSort SLe (r ++ [dep]) else r) := rfl
    rw [hstep]
    set d2 : String → Nat := fun x => if x == dep then d dep - 1 else d x with hd2
    set r2 : List String :=
      if d dep - 1 = 0 then List.insertionSort SLe (r ++ [dep]) else r with hr2
    have hd2dep : d2 dep = d dep - 1 := by rw [hd2]; simp
    have hd2ne : ∀ x, x ≠ dep → d2 x = d x := by
      intro x hx
      rw [hd2]
      simp [hx]
    have hdepr : dep ∉ r := hdisj dep (by omega)
    have hr2mem : ∀ x, x ∈ r2 ↔ (x ∈ r ∨ (d dep - 1 = 0 ∧ x = dep)) := by
      intro x
      rw [hr2]
      by_cases hz : d dep - 1 = 0
      · rw [if_pos hz]
        rw [(List.perm_insertionSort _ _).mem_iff]
        simp [hz]
      · rw [if_neg hz]
        simp [hz]
    have hcnt2 : ∀ x, ds.count x ≤ d2 x := by
      intro x
      by_cases hx : x = dep
      · subst hx
        rw [hd2dep]
        have := hcnt x
        rw [List.count_cons] at this
        simp at this
        omega
      · rw [hd2ne x hx]
        have := hcnt x
        rw [List.count_cons] at this
        have hbeq : (dep == x) = false := by
          simp only [beq_eq_false_iff_ne, ne_eq]
          exact fun h => hx h.symm
        rw [hbeq] at this
        simp at this
        omega
    have hdisj2 : ∀ x, d2 x ≠ 0 → x ∉ r2 := by
      intro x hx hmem2
      rcases (hr2mem x).mp hmem2 with h | ⟨hz, rfl⟩
      · by_cases hxd : x = dep
        · subst hxd
          exact hdepr h
        · exact hdisj x (by rw [hd2ne x hxd] at hx; exact hx) h
      · rw [hd2dep] at hx
        exact hx hz
    have hsort2 : r2.Sorted SLe := by
      rw [hr2]
      by_cases hz : d dep - 1 = 0
      · rw [if_pos hz]
        exact List.sorted_insertionSort _ _
      · rw [if_neg hz]
        exact hsort
    have hnd2 : r2.Nodup := by
      rw [hr2]
      by_cases hz : d dep - 1 = 0
      · rw [if_pos hz]
        rw [(List.perm_insertionSort _ _).nodup_iff]
        refine List.Nodup.append hnd (by simp) ?_
        intro y hy hy2
        rw [List.mem_singleton.mp hy2] at hy
        exact hdepr hy
      · rw [if_neg hz]
        exact hnd
    obtain ⟨ih1, ih2, ih3, ih4⟩ := ih d2 r2 hcnt2 hdisj2 hsort2 hnd2
    refine ⟨?_, ih2, ih3, ?_⟩
    · intro x
      rw [ih1 x, List.count_cons]
      by_cases hx : x = dep
      · subst hx
        rw [hd2dep]
        simp
        omega
      · rw [hd2ne x hx]
        have hbeq : (dep == x) = false := by
          simp only [beq_eq_false_iff_ne, ne_eq]
          exact fun h => hx h.symm
        rw [hbeq]
        simp
    · intro x
      rw [ih4 x, hr2mem x, List.count_cons]
      by_cases hx : x = dep
      · subst hx
        rw [hd2dep]
        simp only [beq_self_eq_true, if_true]
        have hc := hcnt2 x
        rw [hd2dep] at hc
        constructor
        · rintro ((h | ⟨hz, _⟩) | ⟨hne, hceq⟩)
          · exact Or.inl h
          · refine Or.inr ⟨by omega, by omega⟩
          · refine Or.inr ⟨by omega, by omega⟩
        · rintro (h | ⟨hne, hceq⟩)
          · exact Or.inl (Or.inl h)
          · by_cases hz : d x - 1 = 0
            · exact Or.inl (Or.inr ⟨hz, by trivial⟩)
            · exact Or.inr ⟨hz, by omega⟩
      · rw [hd2ne x hx]
        have hbeq : (dep == x) = false := by
          simp only [beq_eq_false_iff_ne, ne_eq]
          exact fun h => hx h.symm
        rw [hbeq]
        simp only [Bool.false_eq_true, if_false, Nat.add_zero]
        constructor
        · rintro ((h | ⟨_, hxd⟩) | h)
          · exact Or.inl h
          · exact absurd hxd hx
          · exact Or.inr h
        · rintro (h | h)
          · exact Or.inl (Or.inl h)
          · exact Or.inr h

theorem eligibleB_iff (keys : List String) (g : String → List String)
    (order : List String) (x : String) :
    eligibleB keys g order x = true ↔ (x ∉ order ∧ ∀ r ∈ g x, r ∈ keys ∧ r ∈ order) := by
  unfold eligibleB
  simp

theorem countP_zero_iff_all (keys order : List String) (l : List String) :
    (l.countP fun r => !(decide (r ∈ keys) && decide (r ∈ order))) = 0 ↔
      ∀ r ∈ l, r ∈ keys ∧ r ∈ order := by
  rw [List.countP_eq_zero]
  simp

theorem kahnLoop_eq_canonical (keys : List String) (g : String → List String)
    (hknd : keys.Nodup) :
    ∀ (fuel : Nat) (order ready : List String) (inDeg : String → Nat),
      order.Nodup → order ⊆ keys →
      (∀ x ∈ order, ∀ r ∈ g x, r ∈ keys ∧ r ∈ order) →
      (∀ x ∈ keys, inDeg x =
        (g x).countP fun r => !(decide (r ∈ keys) && decide (r ∈ order))) →
      ready.Sorted SLe → ready.Nodup →
      (∀ x, x ∈ ready ↔ x ∈ keys ∧ eligibleB keys g order x = true) →
      kahnLoop (dependentsOf keys g) fuel ready inDeg order =
        canonicalFrom keys g fuel order := by
  intro fuel
  induction fuel with
  | zero => intro order ready inDeg _ _ _ _ _ _ _; rfl
  | succ f ih =>
    intro order ready inDeg hond hosub hord hdeg hsort hrnd hrmem
    have hready_eq : ready = canonicalNext keys g order := by
      unfold canonicalNext
      refine List.eq_of_perm_of_sorted ?_ hsort (List.sorted_insertionSort _ _)
      refine List.Perm.trans ?_ (List.perm_insertionSort _ _).symm
      rw [List.perm_ext_iff_of_nodup hrnd (List.Nodup.filter _ hknd)]
      intro x
      rw [hrmem x, List.mem_filter]
    cases hr : ready with
    | nil =>
      rw [hr] at hready_eq
      rw [kahnLoop, canonicalFrom, ← hready_eq]
    | cons current rest =>
      rw [hr] at hready_eq hrmem hsort hrnd
      have hcur := (hrmem current).mp (List.mem_cons_self current rest)
      obtain ⟨hcurk, hcurel⟩ := hcur
      obtain ⟨hcurnord, hcurall⟩ := (eligibleB_iff keys g order current).mp hcurel
      have hcount_ds : ∀ x, (dependentsOf keys g current).count x =
          if x ∈ keys then (g x).count current else 0 :=
        count_dependentsOf g hknd hcurk
      -- preconditions of the fold lemma
      have hfa : ∀ x, (dependentsOf keys g current).count x ≤ inDeg x := by
        intro x
        rw [hcount_ds x]
        by_cases hx : x ∈ keys
        · rw [if_pos hx, hdeg x hx]
          refine count_le_countP_of ?_
          simp [hcurk, hcurnord]
        · rw [if_neg hx]
          exact Nat.zero_le _
      have hfb : ∀ x, inDeg x ≠ 0 → x ∉ rest := by
        intro x hx hmem
        have hx2 := (hrmem x).mp (List.mem_cons_of_mem current hmem)
        obtain ⟨hxk, hxel⟩ := hx2
        obtain ⟨_, hxall⟩ := (eligibleB_iff keys g order x).mp hxel
        have : inDeg x = 0 := by
          rw [hdeg x hxk]
          exact (countP_zero_iff_all keys order (g x)).mpr hxall
        exact hx this
      have hfc : rest.Sorted SLe := (List.sorted_cons.mp hsort).2
      have hfd : rest.Nodup := (List.nodup_cons.mp hrnd).2
      have hcurrest : current ∉ rest := (List.nodup_cons.mp hrnd).1
      obtain ⟨hk1, hk2, hk3, hk4⟩ :=
        kahnFold (dependentsOf keys g current) inDeg rest hfa hfb hfc hfd
      -- the canonical step takes `current` as well
      have hnext : canonicalNext keys g order = current :: rest := hready_eq.symm
      rw [kahnLoop]
      rw [canonicalFrom, hnext]
      -- invariants for the next iteration
      have hond2 : (order ++ [current]).Nodup := by
        refine List.Nodup.append hond (by simp) ?_
        intro y hy hy2
        rw [List.mem_singleton.mp hy2] at hy
        exact hcurnord hy
      have hosub2 : (order ++ [current]) ⊆ keys := by
        intro y hy
        rcases List.mem_append.mp hy with h | h
        · exact hosub h
        · rw [List.mem_singleton.mp h]
          exact hcurk
      have hord2 : ∀ x ∈ order ++ [current], ∀ r ∈ g x, r ∈ keys ∧
          r ∈ order ++ [current] := by
        intro x hx r hr
        rcases List.mem_append.mp hx with h | h
        · obtain ⟨h1, h2⟩ := hord x h r hr
          exact ⟨h1, List.mem_append_left _ h2⟩
        · rw [List.mem_singleton.mp h] at hr
          obtain ⟨h1, h2⟩ := hcurall r hr
          exact ⟨h1, List.mem_append_left _ h2⟩
      have hsplit : ∀ x ∈ keys,
          (g x).countP (fun r => !(decide (r ∈ keys) && decide (r ∈ order))) =
          (g x).countP (fun r => !(decide (r ∈ keys) &&
            decide (r ∈ order ++ [current]))) + (g x).count current := by
        intro x _
        refine countP_split_at ?_ ?_ ?_
        · intro r hrc
          have hiff : r ∈ order ++ [current] ↔ r ∈ order := by
            rw [List.mem_append, List.mem_singleton]
            constructor
            · rintro (h | h)
              · exact h
              · exact absurd h hrc
            · exact Or.inl
          rw [decide_eq_decide.mpr hiff]
        · simp [hcurk, hcurnord]
        · simp [hcurk]
      have hdeg2 : ∀ x ∈ keys,
          ((dependentsOf keys g current).foldl kahnStep (inDeg, rest)).1 x =
          (g x).countP (fun r => !(decide (r ∈ keys) &&
            decide (r ∈ order ++ [current]))) := by
        intro x hx
        rw [hk1 x, hcount_ds x, if_pos hx, hdeg x hx, hsplit x hx]
        omega
      have hrmem2 : ∀ x,
          x ∈ ((dependentsOf keys g current).foldl kahnStep (inDeg, rest)).2 ↔
          x ∈ keys ∧ eligibleB keys g (order ++ [current]) x = true := by
        intro x
        rw [hk4 x, hcount_ds x, eligibleB_iff]
        constructor
        · rintro (h | ⟨hne, hceq⟩)
          · obtain ⟨hxk, hxel⟩ := (hrmem x).mp (List.mem_cons_of_mem current h)
            obtain ⟨hxnord, hxall⟩ := (eligibleB_iff keys g order x).mp hxel
            refine ⟨hxk, ?_, ?_⟩
            · intro hc
              rcases List.mem_append.mp hc with h2 | h2
              · exact hxnord h2
              · rw [List.mem_singleton.mp h2] at h
                exact hcurrest h
            · intro r hr
              obtain ⟨h1, h2⟩ := hxall r hr
              exact ⟨h1, List.mem_append_left _ h2⟩
          · have hxk : x ∈ keys := by
              by_contra hc
              rw [if_neg hc] at hceq
              exact hne hceq.symm
            rw [if_pos hxk] at hceq
            have hxnord : x ∉ order := by
              intro hc
              have : inDeg x = 0 := by
                rw [hdeg x hxk]
                refine (countP_zero_iff_all keys order (g x)).mpr ?_
                intro r hr
                exact hord x hc r hr
              exact hne this
            have hxnc : x ≠ current := by
              intro hc
              have : inDeg x = 0 := by
                rw [hdeg x hxk, hc]
                exact (countP_zero_iff_all keys order (g current)).mpr hcurall
              exact hne this
            refine ⟨hxk, ?_, ?_⟩
            · intro hc
              rcases List.mem_append.mp hc with h2 | h2
              · exact hxnord h2
              · exact hxnc (List.mem_singleton.mp h2)
            · intro r hr
              have hz : (g x).countP (fun r => !(decide (r ∈ keys) &&
                  decide (r ∈ order ++ [current]))) = 0 := by
                have := hsplit x hxk
                rw [← hdeg x hxk] at this
                omega
              obtain ⟨h1, h2⟩ := (countP_zero_iff_all keys (order ++ [current])
                (g x)).mp hz r hr
              exact ⟨h1, h2⟩
        · rintro ⟨hxk, hxnord2, hxall2⟩
          have hxnord : x ∉ order := fun hc => hxnord2 (List.mem_append_left _ hc)
          have hxnc : x ≠ current := fun hc =>
            hxnord2 (List.mem_append_right _ (List.mem_singleton.mpr hc))
          by_cases hz : (g x).countP
              (fun r => !(decide (r ∈ keys) && decide (r ∈ order))) = 0
          · left
            have hxel : eligibleB keys g order x = true := by
              rw [eligibleB_iff]
              exact ⟨hxnord, (countP_zero_iff_all keys order (g x)).mp hz⟩
            have := (hrmem x).mpr ⟨hxk, hxel⟩
            rcases List.mem_cons.mp this with h | h
            · exact absurd h hxnc
            · exact h
          · right
            rw [if_pos hxk]
            have hz2 : (g x).countP (fun r => !(decide (r ∈ keys) &&
                decide (r ∈ order ++ [current]))) = 0 := by
              rw [List.countP_eq_zero]
              intro r hr
              obtain ⟨h1, h2⟩ := hxall2 r hr
              simp [h1, h2]
            have hs := hsplit x hxk
            rw [hz2] at hs
            rw [hdeg x hxk]
            constructor
            · omega
            · omega
      exact ih (order ++ [current])
        ((dependentsOf keys g current).foldl kahnStep (inDeg, rest)).2
        ((dependentsOf keys g current).foldl kahnStep (inDeg, rest)).1
        hond2 hosub2 hord2 hdeg2 hk2 hk3 hrmem2

/-- Every element of the list has its `requires` inside `keys` and
strictly earlier in the list. -/
def OrderRespects (keys : List String) (g : String → List String)
    (l : List String) : Prop :=
  ∀ pre x post, l = pre ++ x :: post → ∀ r ∈ g x, r ∈ keys ∧ r ∈ pre

theorem orderRespects_nil (keys : List String) (g : String → List String) :
    OrderRespects keys g [] := by
  intro pre x post h
  exact absurd h (by simp)

theorem orderRespects_append {keys : List String} {g : String → List String}
    {l : List String} {x : String} (hl : OrderRespects keys g l)
    (hx : ∀ r ∈ g x, r ∈ keys ∧ r ∈ l) : OrderRespects keys g (l ++ [x]) := by
  intro pre y post hdec r hr
  cases post using List.reverseRecOn with
  | nil =>
    obtain ⟨h1, h2⟩ := concat_eq_concat hdec
    rw [h1, h2] at hx
    exact hx r hr
  | append_singleton ps b _ =>
    have hdec2 : l ++ [x] = (pre ++ y :: ps) ++ [b] := by
      rw [hdec]; simp
    obtain ⟨h1, _⟩ := concat_eq_concat hdec2
    exact hl pre y ps h1 r hr

theorem mem_canonicalNext (keys : List String) (g : String → List String)
    (order : List String) (x : String) :
    x ∈ canonicalNext keys g order ↔ x ∈ keys ∧ eligibleB keys g order x = true := by
  unfold canonicalNext
  rw [(List.perm_insertionSort _ _).mem_iff, List.mem_filter]

theorem canonicalFrom_props (keys : List String) (g : String → List String) :
    ∀ (fuel : Nat) (order : List String),
      order.Nodup → order ⊆ keys → OrderRespects keys g order →
      (canonicalFrom keys g fuel order).Nodup ∧
      (canonicalFrom keys g fuel order) ⊆ keys ∧
      OrderRespects keys g (canonicalFrom keys g fuel order) ∧
      ∃ d, canonicalFrom keys g fuel order = order ++ d := by
  intro fuel
  induction fuel with
  | zero => intro order h1 h2 h3; exact ⟨h1, h2, h3, [], by simp [canonicalFrom]⟩
  | succ f ih =>
    intro order h1 h2 h3
    cases hnext : canonicalNext keys g order with
    | nil =>
      have hstep : canonicalFrom keys g (f + 1) order = order := by
        rw [canonicalFrom, hnext]
      rw [hstep]
      exact ⟨h1, h2, h3, [], by simp⟩
    | cons m rest =>
      have hstep : canonicalFrom keys g (f + 1) order =
          canonicalFrom keys g f (order ++ [m]) := by
        rw [canonicalFrom, hnext]
      rw [hstep]
      have hm := (mem_canonicalNext keys g order m).mp
        (by rw [hnext]; exact List.mem_cons_self m rest)
      obtain ⟨hmk, hmel⟩ := hm
      obtain ⟨hmnord, hmall⟩ := (eligibleB_iff keys g order m).mp hmel
      have h1b : (order ++ [m]).Nodup := by
        refine List.Nodup.append h1 (by simp) ?_
        intro y hy hy2
        rw [List.mem_singleton.mp hy2] at hy
        exact hmnord hy
      have h2b : (order ++ [m]) ⊆ keys := by
        intro y hy
        rcases List.mem_append.mp hy with h | h
        · exact h2 h
        · rw [List.mem_singleton.mp h]; exact hmk
      have h3b : OrderRespects keys g (order ++ [m]) :=
        orderRespects_append h3 hmall
      obtain ⟨c1, c2, c3, d, hd⟩ := ih (order ++ [m]) h1b h2b h3b
      refine ⟨c1, c2, c3, m :: d, ?_⟩
      rw [hd]
      simp

theorem canonicalFrom_complete (keys : List String) (g : String → List String)
    (hcl : ∀ x ∈ keys, ∀ r ∈ g x, r ∈ keys) (hacyc : Acyclic g) :
    ∀ (fuel : Nat) (order : List String),
      order.Nodup → order ⊆ keys → keys.length ≤ fuel + order.length →
      ∀ k ∈ keys, k ∈ canonicalFrom keys g fuel order := by
  intro fuel
  induction fuel with
  | zero =>
    intro order hnd hsub hlen k hk
    have hsp : order.Subperm keys := hnd.subperm hsub
    have hperm : order.Perm keys :=
      hsp.perm_of_length_le (by simpa using hlen)
    exact hperm.mem_iff.mpr hk
  | succ f ih =>
    intro order hnd hsub hlen k hk
    cases hnext : canonicalNext keys g order with
    | cons m rest =>
      have hstep : canonicalFrom keys g (f + 1) order =
          canonicalFrom keys g f (order ++ [m]) := by
        rw [canonicalFrom, hnext]
      rw [hstep]
      have hm := (mem_canonicalNext keys g order m).mp
        (by rw [hnext]; exact List.mem_cons_self m rest)
      obtain ⟨hmk, hmel⟩ := hm
      obtain ⟨hmnord, _⟩ := (eligibleB_iff keys g order m).mp hmel
      refine ih (order ++ [m]) ?_ ?_ ?_ k hk
      · refine List.Nodup.append hnd (by simp) ?_
        intro y hy hy2
        rw [List.mem_singleton.mp hy2] at hy
        exact hmnord hy
      · intro y hy
        rcases List.mem_append.mp hy with h | h
        · exact hsub h
        · rw [List.mem_singleton.mp h]; exact hmk
      · rw [List.length_append, List.length_singleton]
        omega
    | nil =>
      have hstep : canonicalFrom keys g (f + 1) order = order := by
        rw [canonicalFrom, hnext]
      rw [hstep]
      -- no field is ready although some are unemitted: a cycle would exist
      by_contra hkno
      have hS : k ∈ keys.filter fun x => decide (x ∉ order) := by
        rw [List.mem_filter]
        refine ⟨hk, ?_⟩
        simp only [decide_eq_true_eq]
        intro hc
        exact hkno hc
      have hsucc : ∀ x ∈ keys.filter (fun x => decide (x ∉ order)),
          ∃ y ∈ keys.filter (fun x => decide (x ∉ order)), y ∈ g x := by
        intro x hx
        rw [List.mem_filter] at hx
        obtain ⟨hxk, hxno⟩ := hx
        simp only [decide_eq_true_eq] at hxno
        have hnel : eligibleB keys g order x = false := by
          by_contra hc
          rw [Bool.not_eq_false] at hc
          have : x ∈ canonicalNext keys g order :=
            (mem_canonicalNext keys g order x).mpr ⟨hxk, hc⟩
          rw [hnext] at this
          simp at this
        have hnel2 : ¬(x ∉ order ∧ ∀ r ∈ g x, r ∈ keys ∧ r ∈ order) := by
          rw [← eligibleB_iff keys g order x]
          simp [hnel]
        push_neg at hnel2
        obtain ⟨r, hr, hrno⟩ := hnel2 hxno
        refine ⟨r, ?_, hr⟩
        rw [List.mem_filter]
        have hrk : r ∈ keys := hcl x hxk r hr
        refine ⟨hrk, ?_⟩
        simp only [decide_eq_true_eq]
        intro hc
        exact hrno hrk hc
      obtain ⟨x, htg⟩ := transGen_self_of_all_have_succ g
        (keys.filter fun x => decide (x ∉ order))
        (by intro hc; rw [hc] at hS; simp at hS) hsucc
      obtain ⟨c, hc⟩ := isCycle_of_transGen_self htg
      exact hacyc c hc

theorem canonicalNext_congr {keys1 keys2 : List String} {g : String → List String}
    (hperm : keys1.Perm keys2) (order : List String) :
    canonicalNext keys1 g order = canonicalNext keys2 g order := by
  have helig : ∀ x, eligibleB keys1 g order x = eligibleB keys2 g order x := by
    intro x
    have hp : (fun r => decide (r ∈ keys1) && decide (r ∈ order)) =
        (fun r => decide (r ∈ keys2) && decide (r ∈ order)) := by
      funext r
      rw [decide_eq_decide.mpr hperm.mem_iff]
    unfold eligibleB
    rw [hp]
  unfold canonicalNext
  refine List.eq_of_perm_of_sorted ?_ (List.sorted_insertionSort _ _)
    (List.sorted_insertionSort _ _)
  refine (List.perm_insertionSort _ _).trans
    (List.Perm.trans ?_ (List.perm_insertionSort _ _).symm)
  have : keys1.filter (eligibleB keys1 g order) =
      keys1.filter (eligibleB keys2 g order) := by
    refine List.filter_congr ?_
    intro x _
    exact helig x
  rw [this]
  exact hperm.filter _

theorem canonicalFrom_congr {keys1 keys2 : List String} {g : String → List String}
    (hperm : keys1.Perm keys2) :
    ∀ (fuel : Nat) (order : List String),
      canonicalFrom keys1 g fuel order = canonicalFrom keys2 g fuel order := by
  intro fuel
  induction fuel with
  | zero => intro order; rfl
  | succ f ih =>
    intro order
    rw [canonicalFrom, canonicalFrom, canonicalNext_congr hperm order]
    cases canonicalNext keys2 g order with
    | nil => rfl
    | cons m rest => exact ih (order ++ [m])

theorem canonicalKahn_congr {keys1 keys2 : List String} {g : String → List String}
    (hperm : keys1.Perm keys2) :
    canonicalKahn keys1 g = canonicalKahn keys2 g := by
  unfold canonicalKahn
  rw [hperm.length_eq, canonicalFrom_congr hperm]

theorem toposortFields_eq_canonical (spec : List (String × List String))
    (hknd : (spec.map (·.1)).Nodup) :
    toposortFields spec =
      if (canonicalKahn (spec.map (·.1)) (graphOf spec)).length =
          (spec.map (·.1)).length
      then .ok (canonicalKahn (spec.map (·.1)) (graphOf spec))
      else .error "Cycle detected or missing nodes during toposort" := by
  have hloop : kahnLoop (dependentsOf (spec.map (·.1)) (graphOf spec))
      ((spec.map (·.1)).length + 1)
      (List.insertionSort SLe ((spec.map (·.1)).filter
        fun k => (graphOf spec k).length == 0))
      (fun k => (graphOf spec k).length) [] =
      canonicalKahn (spec.map (·.1)) (graphOf spec) := by
    unfold canonicalKahn
    refine kahnLoop_eq_canonical (spec.map (·.1)) (graphOf spec) hknd _ [] _ _
      (by simp) (by simp) (by simp) ?_ (List.sorted_insertionSort _ _) ?_ ?_
    · intro x _
      have hcp : (graphOf spec x).countP
          (fun r => !(decide (r ∈ spec.map (·.1)) && decide (r ∈ ([] : List String)))) =
          (graphOf spec x).countP (fun _ => true) := by
        refine List.countP_congr ?_
        intro r _
        simp
      rw [hcp, List.countP_true]
    · rw [(List.perm_insertionSort _ _).nodup_iff]
      exact List.Nodup.filter _ hknd
    · intro x
      rw [(List.perm_insertionSort _ _).mem_iff, List.mem_filter]
      constructor
      · rintro ⟨hxk, hxz⟩
        refine ⟨hxk, ?_⟩
        rw [eligibleB_iff]
        refine ⟨by simp, ?_⟩
        intro r hr
        exfalso
        simp only [beq_iff_eq, List.length_eq_zero] at hxz
        rw [hxz] at hr
        simp at hr
      · rintro ⟨hxk, hel⟩
        refine ⟨hxk, ?_⟩
        rw [eligibleB_iff] at hel
        obtain ⟨_, hall⟩ := hel
        simp only [beq_iff_eq, List.length_eq_zero]
        by_contra hc
        obtain ⟨r, hr⟩ := List.exists_mem_of_ne_nil _ hc
        exact absurd (hall r hr).2 (by simp)
  simp only [toposortFields]
  rw [hloop]

theorem toposortFields_ok (spec : List (String × List String))
    (hknd : (spec.map (·.1)).Nodup)
    (hcl : ∀ x ∈ spec.map (·.1), ∀ r ∈ graphOf spec x, r ∈ spec.map (·.1))
    (hacyc : Acyclic (graphOf spec)) :
    toposortFields spec = .ok (canonicalKahn (spec.map (·.1)) (graphOf spec)) ∧
      (canonicalKahn (spec.map (·.1)) (graphOf spec)).Perm (spec.map (·.1)) := by
  obtain ⟨hnd, hsub, hresp, _⟩ := canonicalFrom_props (spec.map (·.1)) (graphOf spec)
    ((spec.map (·.1)).length + 1) [] (by simp) (by simp)
    (orderRespects_nil _ _)
  have hall : ∀ k ∈ spec.map (·.1), k ∈ canonicalKahn (spec.map (·.1)) (graphOf spec) :=
    canonicalFrom_complete (spec.map (·.1)) (graphOf spec) hcl hacyc
      ((spec.map (·.1)).length + 1) [] (by simp) (by simp) (by simp)
  have hperm : (canonicalKahn (spec.map (·.1)) (graphOf spec)).Perm (spec.map (·.1)) := by
    have h1 : (canonicalKahn (spec.map (·.1)) (graphOf spec)).Subperm (spec.map (·.1)) :=
      hnd.subperm hsub
    have h2 : (spec.map (·.1)).Subperm (canonicalKahn (spec.map (·.1)) (graphOf spec)) :=
      hknd.subperm hall
    exact h1.perm_of_length_le h2.length_le
  refine ⟨?_, hperm⟩
  rw [toposortFields_eq_canonical spec hknd, if_pos hperm.length_eq]

/-- C4 (counterexample): with fields `a` (requires `c`), `b`, `c`, the
sort emits `b, c, a`; the fields `a` and `b` are mutually unconstrained
(neither reaches the other through `requires`), `"a"` strictly precedes
`"b"` lexicographically, yet `b` precedes `a` in the output — so unconstrained
field pairs do not, in general, appear in lexicographic relative order. -/
theorem claim4_toposort_counterexample :
    toposortFields [("a", ["c"]), ("b", []), ("c", [])] = .ok ["b", "c", "a"] ∧
    ¬Relation.TransGen (EdgeTo (graphOf [("a", ["c"]), ("b", []), ("c", [])])) "a" "b" ∧
    ¬Relation.TransGen (EdgeTo (graphOf [("a", ["c"]), ("b", []), ("c", [])])) "b" "a" ∧
    (strLe "a" "b" = true ∧ "a" ≠ "b") ∧
    ["b", "c", "a"].indexOf "b" < ["b", "c", "a"].indexOf "a" := by
  refine ⟨by rfl, ?_, ?_, by decide, by decide⟩
  · intro h
    have hreach : ∀ y, Relation.TransGen
        (EdgeTo (graphOf [("a", ["c"]), ("b", []), ("c", [])])) "a" y → y = "c" := by
      intro y h2
      induction h2 with
      | single h3 =>
        rename_i z
        have h4 : z ∈ ["c"] := h3
        simpa using h4
      | tail _ h4 ih =>
        rename_i z w
        rw [ih] at h4
        exact absurd (show z ∈ ([] : List String) from h4) (by simp)
    have := hreach "b" h
    simp at this
  · intro h
    obtain ⟨z, hz, _⟩ := Relation.TransGen.head'_iff.mp h
    have : z ∈ ([] : List String) := hz
    simp at this

/-- C4 (amended): for every acyclic specification with nodup keys whose
`requires` all name declared fields, `toposortFields` succeeds with a
permutation of the keys in which every field appears after all fields of
its `requires` list; the output equals the canonical sequence that, at
each step, emits the lexicographically least field whose `requires` are
all already emitted (ties among simultaneously-ready fields broken by
field name), and it is therefore identical across repeated calls and
invariant under re-ordering of the field declarations.  Unconstrained
field pairs need not appear in lexicographic relative order. -/
theorem claim4_toposort (spec : List (String × List String))
    (hknd : (spec.map (·.1)).Nodup)
    (hcl : ∀ x ∈ spec.map (·.1), ∀ r ∈ graphOf spec x, r ∈ spec.map (·.1))
    (hacyc : Acyclic (graphOf spec)) :
    ∃ order, toposortFields spec = .ok order ∧
      order.Perm (spec.map (·.1)) ∧
      OrderRespects (spec.map (·.1)) (graphOf spec) order ∧
      order = canonicalKahn (spec.map (·.1)) (graphOf spec) ∧
      ∀ spec2 : List (String × List String),
        (spec2.map (·.1)).Perm (spec.map (·.1)) →
        graphOf spec2 = graphOf spec →
        toposortFields spec2 = .ok order := by
  obtain ⟨hok, hperm⟩ := toposortFields_ok spec hknd hcl hacyc
  obtain ⟨_, _, hresp, _⟩ := canonicalFrom_props (spec.map (·.1)) (graphOf spec)
    ((spec.map (·.1)).length + 1) [] (by simp) (by simp) (orderRespects_nil _ _)
  refine ⟨_, hok, hperm, hresp, rfl, ?_⟩
  intro spec2 hperm2 hg2
  have hknd2 : (spec2.map (·.1)).Nodup := (hperm2.nodup_iff).mpr hknd
  have hcl2 : ∀ x ∈ spec2.map (·.1), ∀ r ∈ graphOf spec2 x, r ∈ spec2.map (·.1) := by
    intro x hx r hr
    rw [hg2] at hr
    exact hperm2.mem_iff.mpr (hcl x (hperm2.mem_iff.mp hx) r hr)
  have hacyc2 : Acyclic (graphOf spec2) := by
    rw [hg2]
    exact hacyc
  obtain ⟨hok2, _⟩ := toposortFields_ok spec2 hknd2 hcl2 hacyc2
  rw [hok2, hg2, canonicalKahn_congr hperm2]

theorem claim4_toposort_witness :
    ∃ order, toposortFields
        [("arrival", ["departure"]), ("departure", []),
          ("date", ["departure", "arrival"]),
          ("passengers", ["departure", "arrival", "date"])] = .ok order ∧
      order.Perm (["arrival", "departure", "date", "passengers"]) ∧
      OrderRespects (["arrival", "departure", "date", "passengers"])
        (graphOf [("arrival", ["departure"]), ("departure", []),
          ("date", ["departure", "arrival"]),
          ("passengers", ["departure", "arrival", "date"])]) order ∧
      order = canonicalKahn (["arrival", "departure", "date", "passengers"])
        (graphOf [("arrival", ["departure"]), ("departure", []),
          ("date", ["departure", "arrival"]),
          ("passengers", ["departure", "arrival", "date"])]) ∧
      ∀ spec2 : List (String × List String),
        (spec2.map (·.1)).Perm (["arrival", "departure", "date", "passengers"]) →
        graphOf spec2 = graphOf [("arrival", ["departure"]), ("departure", []),
          ("date", ["departure", "arrival"]),
          ("passengers", ["departure", "arrival", "date"])] →
        toposortFields spec2 = .ok order :=
  claim4_toposort
    [("arrival", ["departure"]), ("departure", []),
      ("date", ["departure", "arrival"]),
      ("passengers", ["departure", "arrival", "date"])]
    (by decide) (by decide)
    (detectRequiresCycles_complete _ (by decide))

/-! ## Call-time behaviour of `validateToolInput` -/

theorem keysOf_flowLike (spec : ToolSpec) :
    (spec.map fun e => (e.1, e.2.requires)).map (·.1) = keysOf spec := by
  unfold keysOf
  rw [List.map_map]
  rfl

/-- The loop body of `validateToolInput` as a total function; it agrees
with `stepField` on every field that has a configuration (and the loop
only ever visits such fields). -/
def stepPure (spec : ToolSpec) (loose : VF) (dynamicSet : List String)
    (st : IterState) (dynamicField : String) : IterState :=
  match objGet spec dynamicField with
  | none => st
  | some fieldSpec =>
    let value := readDefined loose dynamicField
    match buildContext fieldSpec dynamicField st.validFields dynamicSet with
    | .failure missing =>
      { st with
        validationResults :=
          objSet st.validationResults dynamicField (ParamResult.ofMissing missing) }
    | .success context =>
      let validationResult := fieldSpec.validate value context
      let processed := processValidationResult value validationResult
      let validFields := match processed.2 with
        | some w => objSet st.validFields dynamicField w
        | none => st.validFields
      { validFields := validFields,
        validationResults :=
          objSet st.validationResults dynamicField processed.1,
        calls := st.calls ++ [⟨dynamicField, value, context, validationResult⟩] }

theorem stepField_eq_ok (spec : ToolSpec) (loose : VF) (dynamicSet : List String)
    (st : IterState) (f : String) (hf : f ∈ keysOf spec) :
    stepField spec loose dynamicSet st f =
      .ok (stepPure spec loose dynamicSet st f) := by
  have hsome : (objGet spec f).isSome := (objGet_isSome_iff spec f).mpr hf
  cases hrule : objGet spec f with
  | none => rw [hrule] at hsome; simp at hsome
  | some rule =>
    unfold stepField stepPure
    rw [hrule]
    split
    · rename_i hb
      exact absurd hb (by simp)
    · rename_i fs hb
      injection hb with hb2
      subst hb2
      split <;> rfl

theorem foldlM_stepField_eq (spec : ToolSpec) (loose : VF) (dynamicSet : List String) :
    ∀ (fs : List String) (st : IterState), (∀ f ∈ fs, f ∈ keysOf spec) →
      fs.foldlM (stepField spec loose dynamicSet) st =
        .ok (fs.foldl (stepPure spec loose dynamicSet) st) := by
  intro fs
  induction fs with
  | nil => intro st _; rfl
  | cons f fs ih =>
    intro st hmem
    rw [List.foldlM_cons,
      stepField_eq_ok spec loose dynamicSet st f (hmem f (List.mem_cons_self f fs)),
      List.foldl_cons]
    exact ih _ (fun x hx => hmem x (List.mem_cons_of_mem f hx))

theorem sortFields_ok_facts (spec : ToolSpec) (hknd : (keysOf spec).Nodup)
    {sorted : List String} (h : sortFields spec = .ok sorted) :
    sorted.Nodup ∧ (∀ f ∈ sorted, f ∈ keysOf spec) ∧ ∀ f ∈ keysOf spec, f ∈ sorted := by
  unfold sortFields at h
  have hknd2 : ((spec.map fun e => (e.1, e.2.requires)).map (·.1)).Nodup := by
    rw [keysOf_flowLike]
    exact hknd
  rw [toposortFields_eq_canonical _ hknd2] at h
  by_cases hlen : (canonicalKahn ((spec.map fun e => (e.1, e.2.requires)).map (·.1))
      (graphOf (spec.map fun e => (e.1, e.2.requires)))).length =
      ((spec.map fun e => (e.1, e.2.requires)).map (·.1)).length
  · rw [if_pos hlen] at h
    have hsorted : sorted = canonicalKahn ((spec.map fun e => (e.1, e.2.requires)).map (·.1))
        (graphOf (spec.map fun e => (e.1, e.2.requires))) := by
      injection h with h2
      exact h2.symm
    unfold canonicalKahn at hsorted hlen
    obtain ⟨hnd, hsub, _, _⟩ := canonicalFrom_props
      ((spec.map fun e => (e.1, e.2.requires)).map (·.1))
      (graphOf (spec.map fun e => (e.1, e.2.requires)))
      (((spec.map fun e => (e.1, e.2.requires)).map (·.1)).length + 1) []
      (by simp) (by simp) (orderRespects_nil _ _)
    rw [← hsorted] at hnd hsub
    rw [keysOf_flowLike] at hsub hlen hsorted
    refine ⟨hnd, hsub, ?_⟩
    have hsp : sorted.Subperm (keysOf spec) := hnd.subperm hsub
    have hperm : sorted.Perm (keysOf spec) := by
      refine hsp.perm_of_length_le ?_
      rw [← hsorted] at hlen
      omega
    intro f hf
    exact hperm.mem_iff.mpr hf
  · rw [if_neg hlen] at h
    exact absurd h (by simp)

theorem validateToolInputRun_eq_ok (spec : ToolSpec) (loose : VF) {sorted : List String}
    (hs : sortFields spec = .ok sorted)
    (hsub : ∀ f ∈ sorted, f ∈ keysOf spec) :
    validateToolInputRun spec loose = .ok (sorted,
      sorted.foldl (stepPure spec loose (spec.map (·.1)))
        ⟨initializeStaticFields loose (spec.map (·.1)), [], []⟩) := by
  unfold validateToolInputRun
  rw [hs]
  show Except.bind (sorted.foldlM (stepField spec loose (spec.map (·.1)))
      ⟨initializeStaticFields loose (spec.map (·.1)), [], []⟩)
      (fun st => Except.ok (sorted, st)) = _
  rw [foldlM_stepField_eq spec loose (spec.map (·.1)) sorted
    ⟨initializeStaticFields loose (spec.map (·.1)), [], []⟩ hsub]
  rfl

theorem validateToolInput_of_run (spec : ToolSpec) (loose : VF) (sorted : List String)
    (stF : IterState) (hrun : validateToolInputRun spec loose = .ok (sorted, stF)) :
    validateToolInput spec loose = .ok
      (if sorted.all (fun k =>
          !((objGet stF.validationResults k).map (·.valid) == some false))
        then .accepted stF.validFields else .rejected stF.validationResults) := by
  unfold validateToolInput
  rw [hrun]
  rfl

/-- C3 (counterexample): a specification whose single field requires an
undeclared field passes finalization (cycle detection tolerates the
ghost), its validator is total, and yet validation of any input throws
at call time inside the topological sort. -/
theorem claim3_counterexample :
    validateToolSpec [("a", ⟨["ghost"], fun _ _ => ParamResult.okPlain⟩)] = .ok () ∧
    validateToolInput [("a", ⟨["ghost"], fun _ _ => ParamResult.okPlain⟩)] [] =
      .error "Cycle detected or missing nodes during toposort" := by
  exact ⟨rfl, rfl⟩

/-- C3 (amended): for every specification that passes finalization, whose
`requires` entries all name declared fields, and (as modelled) whose
validators are total functions, `validateToolInput` never throws: every
call returns a structured accepted/rejected result. -/
theorem claim3_no_calltime_error (spec : ToolSpec) (loose : VF)
    (hknd : (keysOf spec).Nodup)
    (hcl : ∀ x ∈ keysOf spec,
      ∀ r ∈ graphOf (spec.map fun e => (e.1, e.2.requires)) x, r ∈ keysOf spec)
    (hok : validateToolSpec spec = .ok ()) :
    ∃ res, validateToolInput spec loose = .ok res := by
  have hnil := (validateToolSpec_ok_iff spec).mp hok
  have hacyc := detectRequiresCycles_complete _ hnil
  have hknd2 : ((spec.map fun e => (e.1, e.2.requires)).map (·.1)).Nodup := by
    rw [keysOf_flowLike]
    exact hknd
  have hcl2 : ∀ x ∈ (spec.map fun e => (e.1, e.2.requires)).map (·.1),
      ∀ r ∈ graphOf (spec.map fun e => (e.1, e.2.requires)) x,
        r ∈ (spec.map fun e => (e.1, e.2.requires)).map (·.1) := by
    rw [keysOf_flowLike]
    exact hcl
  obtain ⟨htopo, _⟩ := toposortFields_ok _ hknd2 hcl2 hacyc
  have hsort : sortFields spec = .ok (canonicalKahn
      ((spec.map fun e => (e.1, e.2.requires)).map (·.1))
      (graphOf (spec.map fun e => (e.1, e.2.requires)))) := htopo
  obtain ⟨_, hsub, _⟩ := sortFields_ok_facts spec hknd hsort
  exact ⟨_, validateToolInput_of_run spec loose _ _
    (validateToolInputRun_eq_ok spec loose hsort hsub)⟩

theorem claim3_no_calltime_error_witness :
    ∃ res, validateToolInput [("a", ⟨[], fun _ _ => ParamResult.okPlain⟩)]
      [("b", some (Value.vStr "x"))] = .ok res :=
  claim3_no_calltime_error [("a", ⟨[], fun _ _ => ParamResult.okPlain⟩)]
    [("b", some (Value.vStr "x"))] (by decide) (by decide) rfl

/-! ## Per-field behaviour of the loop body -/

theorem stepPure_eq_of_failure {spec : ToolSpec} {loose : VF} {dynamicSet : List String}
    {st : IterState} {f : String} {rule : ToolFieldConfig} {missing : List String}
    (hrule : objGet spec f = some rule)
    (hb : buildContext rule f st.validFields dynamicSet = .failure missing) :
    stepPure spec loose dynamicSet st f =
      { st with validationResults :=
          objSet st.validationResults f (ParamResult.ofMissing missing) } := by
  unfold stepPure
  rw [hrule]
  split
  · rename_i hb2
    exact absurd hb2 (by simp)
  · rename_i fs hb2
    injection hb2 with hb3
    subst hb3
    split
    · rename_i m hb4
      rw [hb] at hb4
      injection hb4 with h
      subst h
      rfl
    · rename_i c hb4
      rw [hb] at hb4
      exact absurd hb4 (by simp)

theorem stepPure_eq_of_success {spec : ToolSpec} {loose : VF} {dynamicSet : List String}
    {st : IterState} {f : String} {rule : ToolFieldConfig} {context : Ctx}
    (hrule : objGet spec f = some rule)
    (hb : buildContext rule f st.validFields dynamicSet = .success context) :
    stepPure spec loose dynamicSet st f =
      { validFields :=
          match (processValidationResult (readDefined loose f)
              (rule.validate (readDefined loose f) context)).2 with
          | some w => objSet st.validFields f w
          | none => st.validFields,
        validationResults := objSet st.validationResults f
          (processValidationResult (readDefined loose f)
            (rule.validate (readDefined loose f) context)).1,
        calls := st.calls ++ [⟨f, readDefined loose f, context,
          rule.validate (readDefined loose f) context⟩] } := by
  unfold stepPure
  rw [hrule]
  split
  · rename_i hb2
    exact absurd hb2 (by simp)
  · rename_i fs hb2
    injection hb2 with hb3
    subst hb3
    split
    · rename_i m hb4
      rw [hb] at hb4
      exact absurd hb4 (by simp)
    · rename_i c hb4
      rw [hb] at hb4
      injection hb4 with h
      subst h
      rfl

theorem stepPure_validationResults_ne (spec : ToolSpec) (loose : VF)
    (dynamicSet : List String) (st : IterState) (f k : String) (hk : k ≠ f) :
    objGet (stepPure spec loose dynamicSet st f).validationResults k =
      objGet st.validationResults k := by
  unfold stepPure
  split
  · rfl
  · split
    · exact objGet_objSet_ne st.validationResults hk _
    · exact objGet_objSet_ne st.validationResults hk _

theorem stepPure_validFields_ne (spec : ToolSpec) (loose : VF)
    (dynamicSet : List String) (st : IterState) (f k : String) (hk : k ≠ f) :
    objGet (stepPure spec loose dynamicSet st f).validFields k =
      objGet st.validFields k := by
  unfold stepPure
  split
  · rfl
  · split
    · rfl
    · simp only []
      split
      · exact objGet_objSet_ne st.validFields hk _
      · rfl

theorem stepPure_calls (spec : ToolSpec) (loose : VF) (dynamicSet : List String)
    (st : IterState) (f : String) :
    ∃ d, (stepPure spec loose dynamicSet st f).calls = st.calls ++ d ∧
      ∀ c ∈ d, c.field = f := by
  unfold stepPure
  split
  · exact ⟨[], by simp, by simp⟩
  · split
    · exact ⟨[], by simp, by simp⟩
    · refine ⟨_, rfl, ?_⟩
      intro c hc
      rw [List.mem_singleton.mp hc]

theorem foldl_stepPure_validationResults_ne (spec : ToolSpec) (loose : VF)
    (dynamicSet : List String) :
    ∀ (fs : List String) (st : IterState) (k : String), k ∉ fs →
      objGet ((fs.foldl (stepPure spec loose dynamicSet) st).validationResults) k =
        objGet st.validationResults k := by
  intro fs
  induction fs with
  | nil => intro st k _; rfl
  | cons f fs ih =>
    intro st k hk
    rw [List.foldl_cons,
      ih _ k (fun hc => hk (List.mem_cons_of_mem f hc)),
      stepPure_validationResults_ne spec loose dynamicSet st f k
        (fun hc => hk (hc ▸ List.mem_cons_self f fs))]

theorem foldl_stepPure_validFields_ne (spec : ToolSpec) (loose : VF)
    (dynamicSet : List String) :
    ∀ (fs : List String) (st : IterState) (k : String), k ∉ fs →
      objGet ((fs.foldl (stepPure spec loose dynamicSet) st).validFields) k =
        objGet st.validFields k := by
  intro fs
  induction fs with
  | nil => intro st k _; rfl
  | cons f fs ih =>
    intro st k hk
    rw [List.foldl_cons,
      ih _ k (fun hc => hk (List.mem_cons_of_mem f hc)),
      stepPure_validFields_ne spec loose dynamicSet st f k
        (fun hc => hk (hc ▸ List.mem_cons_self f fs))]

theorem foldl_stepPure_calls (spec : ToolSpec) (loose : VF)
    (dynamicSet : List String) :
    ∀ (fs : List String) (st : IterState),
      ∃ d, (fs.foldl (stepPure spec loose dynamicSet) st).calls = st.calls ++ d ∧
        ∀ c ∈ d, c.field ∈ fs := by
  intro fs
  induction fs with
  | nil => intro st; exact ⟨[], by simp, by simp⟩
  | cons f fs ih =>
    intro st
    rw [List.foldl_cons]
    obtain ⟨d1, hd1, hf1⟩ := stepPure_calls spec loose dynamicSet st f
    obtain ⟨d2, hd2, hf2⟩ := ih (stepPure spec loose dynamicSet st f)
    refine ⟨d1 ++ d2, by rw [hd2, hd1, List.append_assoc], ?_⟩
    intro c hc
    rcases List.mem_append.mp hc with h | h
    · rw [hf1 c h]
      exact List.mem_cons_self f fs
    · exact List.mem_cons_of_mem f (hf2 c h)

/-! ## Characterizing the context object built by `buildContext` -/

theorem readDefined_eq_some_iff (o : VF) (k : String) (v : Value) :
    readDefined o k = some v ↔ objGet o k = some (some v) := by
  unfold readDefined
  cases h : objGet o k with
  | none => simp
  | some ov => cases ov <;> simp

theorem objGet_foldl_objSet (v : Value) :
    ∀ (es : List (String × Value)) (acc : Ctx) (k : String),
      (∀ e ∈ es, e.1 = k → e.2 = v) →
      objGet (es.foldl (fun acc e => objSet acc e.1 e.2) acc) k =
        if es.any (fun e => e.1 == k) then some v else objGet acc k := by
  intro es
  induction es with
  | nil => intro acc k _; simp
  | cons e es ih =>
    intro acc k h
    rw [List.foldl_cons, ih (objSet acc e.1 e.2) k
      (fun x hx hxk => h x (List.mem_cons_of_mem e hx) hxk)]
    by_cases hek : e.1 = k
    · have he2 : e.2 = v := h e (List.mem_cons_self e es) hek
      rw [hek, he2, objGet_objSet_self]
      simp [hek]
    · rw [objGet_objSet_ne acc (fun hc => hek hc.symm) e.2]
      have hfalse : (e.1 == k) = false := beq_eq_false_iff_ne.mpr hek
      rw [List.any_cons, hfalse, Bool.false_or]

theorem fromEntries_get (es : List (String × Value)) (k : String) (v : Value)
    (h : ∀ e ∈ es, e.1 = k → e.2 = v) :
    objGet (fromEntries es) k =
      if es.any (fun e => e.1 == k) then some v else none := by
  unfold fromEntries
  exact objGet_foldl_objSet v es [] k h

/-- The three entry groups assembled by `buildContext` when no requirement
is missing: requirement values, static values, other dynamic values. -/
def contextEntries (rule : ToolFieldConfig) (fieldKey : String) (validFields : VF)
    (dynamicSet : List String) : List (String × Value) :=
  (rule.requires.filterMap fun r =>
    (readDefined validFields r).map fun v => (r, v)) ++
  (validFields.filterMap fun e =>
    if e.1 ≠ fieldKey ∧ e.1 ∉ dynamicSet then e.2.map fun v => (e.1, v) else none) ++
  (validFields.filterMap fun e =>
    if e.1 ≠ fieldKey ∧ e.1 ∉ rule.requires ∧ e.1 ∈ dynamicSet then
      e.2.map fun v => (e.1, v)
    else none)

theorem buildContext_eq (rule : ToolFieldConfig) (fieldKey : String)
    (validFields : VF) (dynamicSet : List String) :
    buildContext rule fieldKey validFields dynamicSet =
      if (rule.requires.filter fun dep => (readDefined validFields dep).isNone) = []
      then .success (fromEntries (contextEntries rule fieldKey validFields dynamicSet))
      else .failure
        (rule.requires.filter fun dep => (readDefined validFields dep).isNone) := by
  unfold buildContext contextEntries
  split <;> rename_i hm <;> simp [hm]

theorem mem_contextEntries_val {rule : ToolFieldConfig} {fieldKey : String}
    {validFields : VF} {dynamicSet : List String}
    (hnd : (keysOf validFields).Nodup) {e : String × Value}
    (he : e ∈ contextEntries rule fieldKey validFields dynamicSet) :
    readDefined validFields e.1 = some e.2 := by
  unfold contextEntries at he
  rcases List.mem_append.mp he with he2 | he3
  rcases List.mem_append.mp he2 with h1 | h2
  · rcases List.mem_filterMap.mp h1 with ⟨r, _, hr⟩
    cases hv : readDefined validFields r with
    | none => rw [hv] at hr; exact absurd hr (by simp)
    | some v =>
      rw [hv] at hr
      injection hr with hr2
      rw [← hr2]
      exact hv
  · rcases List.mem_filterMap.mp h2 with ⟨b, hb, hr⟩
    split at hr
    · cases hb2 : b.2 with
      | none => rw [hb2] at hr; exact absurd hr (by simp)
      | some v =>
        rw [hb2] at hr
        injection hr with hr2
        rw [← hr2]
        exact readDefined_eq_some_iff validFields b.1 v |>.mpr
          ((objGet_eq_some_iff_of_nodup hnd).mpr (hb2 ▸ hb))
    · exact absurd hr (by simp)
  · rcases List.mem_filterMap.mp he3 with ⟨b, hb, hr⟩
    split at hr
    · cases hb2 : b.2 with
      | none => rw [hb2] at hr; exact absurd hr (by simp)
      | some v =>
        rw [hb2] at hr
        injection hr with hr2
        rw [← hr2]
        exact readDefined_eq_some_iff validFields b.1 v |>.mpr
          ((objGet_eq_some_iff_of_nodup hnd).mpr (hb2 ▸ hb))
    · exact absurd hr (by simp)

theorem mem_contextEntries_key {rule : ToolFieldConfig} {fieldKey : String}
    {validFields : VF} {dynamicSet : List String} {e : String × Value}
    (he : e ∈ contextEntries rule fieldKey validFields dynamicSet) :
    e.1 ∈ rule.requires ∨ e.1 ≠ fieldKey := by
  unfold contextEntries at he
  rcases List.mem_append.mp he with he2 | he3
  rcases List.mem_append.mp he2 with h1 | h2
  · rcases List.mem_filterMap.mp h1 with ⟨r, hrm, hr⟩
    cases hv : readDefined validFields r with
    | none => rw [hv] at hr; exact absurd hr (by simp)
    | some v =>
      rw [hv] at hr
      injection hr with hr2
      rw [← hr2]
      exact Or.inl hrm
  · rcases List.mem_filterMap.mp h2 with ⟨b, _, hr⟩
    split at hr
    · rename_i hcond
      cases hb2 : b.2 with
      | none => rw [hb2] at hr; exact absurd hr (by simp)
      | some v =>
        rw [hb2] at hr
        injection hr with hr2
        rw [← hr2]
        exact Or.inr hcond.1
    · exact absurd hr (by simp)
  · rcases List.mem_filterMap.mp he3 with ⟨b, _, hr⟩
    split at hr
    · rename_i hcond
      cases hb2 : b.2 with
      | none => rw [hb2] at hr; exact absurd hr (by simp)
      | some v =>
        rw [hb2] at hr
        injection hr with hr2
        rw [← hr2]
        exact Or.inr hcond.1
    · exact absurd hr (by simp)

theorem contextEntries_has_key {rule : ToolFieldConfig} {fieldKey : String}
    {validFields : VF} {dynamicSet : List String} {k : String} {v : Value}
    (hv : readDefined validFields k = some v)
    (hk : k ∈ rule.requires ∨ k ≠ fieldKey) :
    ∃ e ∈ contextEntries rule fieldKey validFields dynamicSet, e.1 = k := by
  unfold contextEntries
  by_cases hreq : k ∈ rule.requires
  · refine ⟨(k, v), List.mem_append.mpr (Or.inl (List.mem_append.mpr (Or.inl ?_))), rfl⟩
    exact List.mem_filterMap.mpr ⟨k, hreq, by rw [hv]; rfl⟩
  · have hkf : k ≠ fieldKey := hk.resolve_left hreq
    have hmem : (k, some v) ∈ validFields :=
      mem_of_objGet_eq_some ((readDefined_eq_some_iff validFields k v).mp hv)
    by_cases hdyn : k ∈ dynamicSet
    · refine ⟨(k, v), List.mem_append.mpr (Or.inr ?_), rfl⟩
      exact List.mem_filterMap.mpr ⟨(k, some v), hmem, by simp [hkf, hreq, hdyn]⟩
    · refine ⟨(k, v), List.mem_append.mpr (Or.inl (List.mem_append.mpr (Or.inr ?_))), rfl⟩
      exact List.mem_filterMap.mpr ⟨(k, some v), hmem, by simp [hkf, hdyn]⟩

theorem buildContext_success_get {rule : ToolFieldConfig} {fieldKey : String}
    {validFields : VF} {dynamicSet : List String} {ctx : Ctx}
    (hnd : (keysOf validFields).Nodup)
    (hb : buildContext rule fieldKey validFields dynamicSet = .success ctx)
    (k : String) :
    objGet ctx k =
      if k ∈ rule.requires ∨ k ≠ fieldKey then readDefined validFields k else none := by
  rw [buildContext_eq] at hb
  split at hb
  · injection hb with hb2
    subst hb2
    by_cases hk : k ∈ rule.requires ∨ k ≠ fieldKey
    · rw [if_pos hk]
      cases hv : readDefined validFields k with
      | some v =>
        have hsame : ∀ e ∈ contextEntries rule fieldKey validFields dynamicSet,
            e.1 = k → e.2 = v := by
          intro e he hek
          have := mem_contextEntries_val hnd he
          rw [hek, hv] at this
          injection this with h2
          exact h2.symm
        rw [fromEntries_get _ k v hsame]
        obtain ⟨e, he, hek⟩ := contextEntries_has_key hv hk
        rw [if_pos (List.any_eq_true.mpr ⟨e, he, by simp [hek]⟩)]
      | none =>
        have hnone : ∀ e ∈ contextEntries rule fieldKey validFields dynamicSet,
            e.1 ≠ k := by
          intro e he hek
          have := mem_contextEntries_val hnd he
          rw [hek, hv] at this
          exact absurd this (by simp)
        rw [fromEntries_get _ k Value.vNull
          (fun e he hek => absurd hek (hnone e he))]
        rw [if_neg ?_]
        simp only [List.any_eq_true, not_exists]
        intro e
        intro hpair
        exact absurd (by simpa using hpair.2) (hnone e hpair.1)
    · rw [if_neg hk]
      push_neg at hk
      have hnone : ∀ e ∈ contextEntries rule fieldKey validFields dynamicSet,
          e.1 ≠ k := by
        intro e he hek
        rcases mem_contextEntries_key he with h | h
        · exact hk.1 (hek ▸ h)
        · exact h (hek.trans hk.2)
      rw [fromEntries_get _ k Value.vNull
        (fun e he hek => absurd hek (hnone e he))]
      rw [if_neg ?_]
      simp only [List.any_eq_true, not_exists]
      intro e hpair
      exact absurd (by simpa using hpair.2) (hnone e hpair.1)
  · exact absurd hb (by simp)

theorem buildContext_failure_iff (rule : ToolFieldConfig) (fieldKey : String)
    (validFields : VF) (dynamicSet : List String) (missing : List String) :
    buildContext rule fieldKey validFields dynamicSet = .failure missing ↔
      missing = (rule.requires.filter fun dep => (readDefined validFields dep).isNone) ∧
      missing ≠ [] := by
  rw [buildContext_eq]
  split <;> rename_i hm
  · constructor
    · intro h; exact absurd h (by simp)
    · rintro ⟨h1, h2⟩; exact absurd (h1.trans hm) h2
  · constructor
    · intro h
      injection h with h2
      exact ⟨h2.symm, fun hc => hm (h2.trans hc)⟩
    · rintro ⟨h1, _⟩
      rw [h1]

/-! ## The seeded working value set, and key invariants of the loop -/

theorem initializeStaticFields_frame (dynamicSet : List String) :
    ∀ (l : VF) (acc : VF) (k : String), k ∉ keysOf l →
      objGet (l.foldl (fun acc e =>
          if e.1 ∉ dynamicSet ∧ e.2.isSome then objSet acc e.1 e.2 else acc) acc) k =
        objGet acc k := by
  intro l
  induction l with
  | nil => intro acc k _; rfl
  | cons e l ih =>
    intro acc k hk
    rw [keysOf_cons, List.mem_cons, not_or] at hk
    rw [List.foldl_cons, ih _ k hk.2]
    by_cases hc : e.1 ∉ dynamicSet ∧ e.2.isSome
    · rw [if_pos hc, objGet_objSet_ne acc hk.1 e.2]
    · rw [if_neg hc]

theorem initializeStaticFields_found (dynamicSet : List String) :
    ∀ (l : VF) (acc : VF) (k : String) (w : Option Value), (keysOf l).Nodup →
      objGet l k = some w →
      objGet (l.foldl (fun acc e =>
          if e.1 ∉ dynamicSet ∧ e.2.isSome then objSet acc e.1 e.2 else acc) acc) k =
        if k ∉ dynamicSet ∧ w.isSome then some w else objGet acc k := by
  intro l
  induction l with
  | nil => intro acc k w _ hg; exact absurd hg (by simp [objGet_nil])
  | cons e l ih =>
    intro acc k w hnd hg
    rw [objGet_cons] at hg
    rw [List.foldl_cons]
    by_cases he : e.1 = k
    · rw [if_pos he] at hg
      injection hg with hg2
      have hkl : k ∉ keysOf l := by
        rw [keysOf_cons] at hnd
        exact he ▸ (List.nodup_cons.mp hnd).1
      rw [initializeStaticFields_frame dynamicSet l _ k hkl]
      by_cases hc : e.1 ∉ dynamicSet ∧ e.2.isSome
      · rw [if_pos hc, if_pos (by rw [← he, ← hg2]; exact hc), he, hg2,
          objGet_objSet_self]
      · rw [if_neg hc, if_neg (by rw [← he, ← hg2]; exact hc)]
    · rw [if_neg he] at hg
      rw [ih _ k w (by rw [keysOf_cons] at hnd; exact (List.nodup_cons.mp hnd).2) hg]
      by_cases hc : e.1 ∉ dynamicSet ∧ e.2.isSome
      · rw [if_pos hc, objGet_objSet_ne acc (fun h => he h.symm) e.2]
      · rw [if_neg hc]

theorem initializeStaticFields_get (loose : VF) (dynamicSet : List String)
    (hnd : (keysOf loose).Nodup) (k : String) :
    objGet (initializeStaticFields loose dynamicSet) k =
      if k ∈ dynamicSet then none else (readDefined loose k).map some := by
  unfold initializeStaticFields
  cases hg : objGet loose k with
  | none =>
    rw [initializeStaticFields_frame dynamicSet loose [] k
      (fun h => (objGet_eq_none_iff loose k).mp hg h), objGet_nil]
    have hr : readDefined loose k = none := by
      unfold readDefined
      rw [hg]
    rw [hr]
    simp
  | some w =>
    rw [initializeStaticFields_found dynamicSet loose [] k w hnd hg, objGet_nil]
    cases w with
    | none =>
      have hrd : readDefined loose k = none := by
        unfold readDefined
        rw [hg]
      rw [hrd]
      simp
    | some v =>
      have hrd : readDefined loose k = some v := by
        unfold readDefined
        rw [hg]
      rw [hrd]
      by_cases hdyn : k ∈ dynamicSet
      · rw [if_neg (by simp [hdyn]), if_pos hdyn]
      · rw [if_pos (by simp [hdyn]), if_neg hdyn]
        rfl

theorem initializeStaticFields_nodup (loose : VF) (dynamicSet : List String) :
    (keysOf (initializeStaticFields loose dynamicSet)).Nodup := by
  unfold initializeStaticFields
  have main : ∀ (l : VF) (acc : VF), (keysOf acc).Nodup →
      (keysOf (l.foldl (fun acc e =>
        if e.1 ∉ dynamicSet ∧ e.2.isSome then objSet acc e.1 e.2 else acc) acc)).Nodup := by
    intro l
    induction l with
    | nil => intro acc h; exact h
    | cons e l ih =>
      intro acc h
      rw [List.foldl_cons]
      refine ih _ ?_
      by_cases hc : e.1 ∉ dynamicSet ∧ e.2.isSome
      · rw [if_pos hc]; exact nodupKeys_objSet acc e.1 e.2 h
      · rw [if_neg hc]; exact h
  exact main loose [] (by simp [keysOf])

theorem stepPure_validFields_nodup (spec : ToolSpec) (loose : VF)
    (dynamicSet : List String) (st : IterState) (f : String)
    (h : (keysOf st.validFields).Nodup) :
    (keysOf (stepPure spec loose dynamicSet st f).validFields).Nodup := by
  unfold stepPure
  split
  · exact h
  · split
    · exact h
    · simp only []
      split
      · exact nodupKeys_objSet _ _ _ h
      · exact h

theorem foldl_stepPure_validFields_nodup (spec : ToolSpec) (loose : VF)
    (dynamicSet : List String) :
    ∀ (fs : List String) (st : IterState), (keysOf st.validFields).Nodup →
      (keysOf ((fs.foldl (stepPure spec loose dynamicSet) st).validFields)).Nodup := by
  intro fs
  induction fs with
  | nil => intro st h; exact h
  | cons f fs ih =>
    intro st h
    rw [List.foldl_cons]
    exact ih _ (stepPure_validFields_nodup spec loose dynamicSet st f h)

theorem stepPure_records (spec : ToolSpec) (loose : VF) (dynamicSet : List String)
    (st : IterState) (f : String) (hf : f ∈ keysOf spec) :
    ∃ r, objGet (stepPure spec loose dynamicSet st f).validationResults f = some r := by
  have hsome : (objGet spec f).isSome := (objGet_isSome_iff spec f).mpr hf
  cases hrule : objGet spec f with
  | none => rw [hrule] at hsome; simp at hsome
  | some rule =>
    cases hb : buildContext rule f st.validFields dynamicSet with
    | failure missing =>
      rw [stepPure_eq_of_failure hrule hb]
      exact ⟨_, objGet_objSet_self _ _ _⟩
    | success context =>
      rw [stepPure_eq_of_success hrule hb]
      exact ⟨_, objGet_objSet_self _ _ _⟩

theorem allValid_iff (sorted : List String) (vr : List (String × ParamResult)) :
    (sorted.all fun k => !((objGet vr k).map (·.valid) == some false)) = true ↔
      ∀ f ∈ sorted, ∀ r, objGet vr f = some r → r.valid = true := by
  rw [List.all_eq_true]
  constructor
  · intro h f hf r hr
    have h2 := h f hf
    rw [hr] at h2
    have h3 : (!(some r.valid == some false)) = true := h2
    cases hv : r.valid
    · rw [hv] at h3
      simp at h3
    · rfl
  · intro h f hf
    cases hr : objGet vr f with
    | none => simp [hr]
    | some r => simp [hr, h f hf r hr]

theorem validateToolInputRun_of_sort_error (spec : ToolSpec) (loose : VF)
    {e : String} (hs : sortFields spec = .error e) :
    validateToolInputRun spec loose = .error e := by
  unfold validateToolInputRun
  rw [hs]
  rfl

theorem validateToolInput_inv (spec : ToolSpec) (loose : VF)
    (hknd : (keysOf spec).Nodup) {res : ToolCallValidationResult}
    (h : validateToolInput spec loose = .ok res) :
    ∃ sorted, sortFields spec = .ok sorted ∧
      sorted.Nodup ∧ (∀ f ∈ sorted, f ∈ keysOf spec) ∧ (∀ f ∈ keysOf spec, f ∈ sorted) ∧
      validateToolInputRun spec loose = .ok (sorted,
        sorted.foldl (stepPure spec loose (spec.map (·.1)))
          ⟨initializeStaticFields loose (spec.map (·.1)), [], []⟩) ∧
      res = (
        let stF := sorted.foldl (stepPure spec loose (spec.map (·.1)))
          ⟨initializeStaticFields loose (spec.map (·.1)), [], []⟩
        if sorted.all (fun k =>
            !((objGet stF.validationResults k).map (·.valid) == some false))
        then .accepted stF.validFields else .rejected stF.validationResults) := by
  cases hs : sortFields spec with
  | error e =>
    rw [show validateToolInput spec loose =
        (validateToolInputRun spec loose).map _ from rfl,
      validateToolInputRun_of_sort_error spec loose hs] at h
    exact absurd h (by simp [Except.map])
  | ok sorted =>
    obtain ⟨hnd, hsub, hall⟩ := sortFields_ok_facts spec hknd hs
    have hrun := validateToolInputRun_eq_ok spec loose hs hsub
    have hv := validateToolInput_of_run spec loose _ _ hrun
    rw [h] at hv
    injection hv with hv2
    exact ⟨sorted, rfl, hnd, hsub, hall, hrun, hv2⟩

/-! ## Closed-form equations for `processValidationResult`, and named runs -/

theorem processValidationResult_eq (value : Option Value) (r : ParamResult) :
    processValidationResult value r =
      (if value = r.normalizedValue then { r with normalizedValue := none } else r,
       if (if value = r.normalizedValue then { r with normalizedValue := none }
           else r).valid then
         some (match (if value = r.normalizedValue then { r with normalizedValue := none }
             else r).normalizedValue with
           | some n => some n
           | none => value)
       else none) := rfl

theorem processValidationResult_of_eq {value : Option Value} {r : ParamResult}
    (h : value = r.normalizedValue) :
    processValidationResult value r =
      ({ r with normalizedValue := none }, if r.valid then some value else none) := by
  rw [processValidationResult_eq, if_pos h]

theorem processValidationResult_of_ne {value : Option Value} {r : ParamResult}
    (h : ¬(value = r.normalizedValue)) :
    processValidationResult value r =
      (r, if r.valid then
        some (match r.normalizedValue with | some n => some n | none => value)
      else none) := by
  rw [processValidationResult_eq, if_neg h]

theorem processValidationResult_snd_of_valid (value : Option Value) (r : ParamResult)
    (h : (processValidationResult value r).1.valid = true) :
    (processValidationResult value r).2 =
      some (match (processValidationResult value r).1.normalizedValue with
        | some nv => some nv
        | none => value) := by
  by_cases hc : value = r.normalizedValue
  · rw [processValidationResult_of_eq hc] at h ⊢
    have h2 : r.valid = true := h
    rw [if_pos h2]
  · rw [processValidationResult_of_ne hc] at h ⊢
    have h2 : r.valid = true := h
    rw [if_pos h2]

/-- The loop state before any dynamic field is processed: static fields
seeded, no outcomes, no validator invocations. -/
def initState (spec : ToolSpec) (loose : VF) : IterState :=
  ⟨initializeStaticFields loose (spec.map (·.1)), [], []⟩

/-- The loop state after processing a given list of fields in order. -/
def runFold (spec : ToolSpec) (loose : VF) (fs : List String) : IterState :=
  fs.foldl (stepPure spec loose (spec.map (·.1))) (initState spec loose)

theorem runFold_split (spec : ToolSpec) (loose : VF) (pre post : List String)
    (f : String) :
    runFold spec loose (pre ++ f :: post) =
      post.foldl (stepPure spec loose (spec.map (·.1)))
        (stepPure spec loose (spec.map (·.1)) (runFold spec loose pre) f) := by
  unfold runFold
  rw [List.foldl_append, List.foldl_cons]

theorem validateToolInputRun_ok_inv (spec : ToolSpec) (loose : VF)
    (hknd : (keysOf spec).Nodup) {sorted : List String} {stF : IterState}
    (h : validateToolInputRun spec loose = .ok (sorted, stF)) :
    sortFields spec = .ok sorted ∧ stF = runFold spec loose sorted ∧
      sorted.Nodup ∧ (∀ f ∈ sorted, f ∈ keysOf spec) ∧
      ∀ f ∈ keysOf spec, f ∈ sorted := by
  cases hs : sortFields spec with
  | error e =>
    rw [validateToolInputRun_of_sort_error spec loose hs] at h
    exact absurd h (by simp)
  | ok s =>
    obtain ⟨hnd, hsub, hall⟩ := sortFields_ok_facts spec hknd hs
    rw [validateToolInputRun_eq_ok spec loose hs hsub] at h
    injection h with h2
    injection h2 with h3 h4
    subst h3
    exact ⟨rfl, h4.symm, hnd, hsub, hall⟩

theorem stepPure_calls_spec (spec : ToolSpec) (loose : VF) (dynamicSet : List String)
    (st : IterState) (g : String) :
    ∃ d, (stepPure spec loose dynamicSet st g).calls = st.calls ++ d ∧
      ∀ c ∈ d, c.field = g ∧ c.value = readDefined loose g ∧
        ∃ rule, objGet spec g = some rule ∧
          buildContext rule g st.validFields dynamicSet = .success c.context ∧
          c.result = rule.validate (readDefined loose g) c.context := by
  cases hrule : objGet spec g with
  | none =>
    refine ⟨[], ?_, by simp⟩
    unfold stepPure
    rw [hrule]
    simp
  | some rule =>
    cases hb : buildContext rule g st.validFields dynamicSet with
    | failure missing =>
      rw [stepPure_eq_of_failure hrule hb]
      exact ⟨[], by simp, by simp⟩
    | success context =>
      rw [stepPure_eq_of_success hrule hb]
      refine ⟨[⟨g, readDefined loose g, context,
        rule.validate (readDefined loose g) context⟩], rfl, ?_⟩
      intro c hc
      rw [List.mem_singleton.mp hc]
      exact ⟨rfl, rfl, rule, rfl, hb, rfl⟩

theorem readDefined_congr {o1 o2 : VF} {k : String}
    (h : objGet o1 k = objGet o2 k) : readDefined o1 k = readDefined o2 k := by
  unfold readDefined
  rw [h]

theorem runFold_field_failure (spec : ToolSpec) (loose : VF)
    {sorted pre post : List String} {f : String} {rule : ToolFieldConfig}
    {missing : List String}
    (hnd : sorted.Nodup) (hsplit : sorted = pre ++ f :: post)
    (hrule : objGet spec f = some rule)
    (hb : buildContext rule f (runFold spec loose pre).validFields
      (spec.map (·.1)) = .failure missing) :
    objGet (runFold spec loose sorted).validationResults f =
      some (ParamResult.ofMissing missing) ∧
    objGet (runFold spec loose sorted).validFields f =
      objGet (runFold spec loose pre).validFields f := by
  subst hsplit
  have hfpost : f ∉ post :=
    (List.nodup_cons.mp (List.nodup_append.mp hnd).2.1).1
  rw [runFold_split]
  constructor
  · rw [foldl_stepPure_validationResults_ne spec loose _ post _ f hfpost,
      stepPure_eq_of_failure hrule hb]
    exact objGet_objSet_self _ _ _
  · rw [foldl_stepPure_validFields_ne spec loose _ post _ f hfpost,
      stepPure_eq_of_failure hrule hb]

theorem runFold_field_success (spec : ToolSpec) (loose : VF)
    {sorted pre post : List String} {f : String} {rule : ToolFieldConfig} {ctx : Ctx}
    (hnd : sorted.Nodup) (hsplit : sorted = pre ++ f :: post)
    (hrule : objGet spec f = some rule)
    (hb : buildContext rule f (runFold spec loose pre).validFields
      (spec.map (·.1)) = .success ctx) :
    objGet (runFold spec loose sorted).validationResults f =
      some (processValidationResult (readDefined loose f)
        (rule.validate (readDefined loose f) ctx)).1 ∧
    objGet (runFold spec loose sorted).validFields f =
      (match (processValidationResult (readDefined loose f)
          (rule.validate (readDefined loose f) ctx)).2 with
       | some w => some w
       | none => objGet (runFold spec loose pre).validFields f) := by
  subst hsplit
  have hfpost : f ∉ post :=
    (List.nodup_cons.mp (List.nodup_append.mp hnd).2.1).1
  rw [runFold_split]
  constructor
  · rw [foldl_stepPure_validationResults_ne spec loose _ post _ f hfpost,
      stepPure_eq_of_success hrule hb]
    exact objGet_objSet_self _ _ _
  · rw [foldl_stepPure_validFields_ne spec loose _ post _ f hfpost,
      stepPure_eq_of_success hrule hb]
    cases hp : (processValidationResult (readDefined loose f)
        (rule.validate (readDefined loose f) ctx)).2 with
    | some w => exact objGet_objSet_self _ _ _
    | none => rfl

theorem foldl_stepPure_context_binds (spec : ToolSpec) (loose : VF)
    (dynamicSet : List String) (e : String) (n : Value) :
    ∀ (gs : List String) (st : IterState),
      (∀ g ∈ gs, g ≠ e) →
      readDefined st.validFields e = some n →
      (keysOf st.validFields).Nodup →
      ∃ d, (gs.foldl (stepPure spec loose dynamicSet) st).calls = st.calls ++ d ∧
        ∀ c ∈ d, objGet c.context e = some n := by
  intro gs
  induction gs with
  | nil => intro st _ _ _; exact ⟨[], by simp, by simp⟩
  | cons g gs ih =>
    intro st hgs hread hnd
    rw [List.foldl_cons]
    obtain ⟨d1, hd1, hctx1⟩ := stepPure_calls_spec spec loose dynamicSet st g
    obtain ⟨d2, hd2, hctx2⟩ := ih (stepPure spec loose dynamicSet st g)
      (fun x hx => hgs x (List.mem_cons_of_mem g hx))
      (by
        rw [readDefined_congr (stepPure_validFields_ne spec loose dynamicSet st g e
          (fun hc => hgs g (List.mem_cons_self g gs) hc.symm))]
        exact hread)
      (stepPure_validFields_nodup spec loose dynamicSet st g hnd)
    refine ⟨d1 ++ d2, by rw [hd2, hd1, List.append_assoc], ?_⟩
    intro c hc
    rcases List.mem_append.mp hc with h | h
    · obtain ⟨hfield, _, rule, hrule, hb, _⟩ := hctx1 c h
      rw [buildContext_success_get hnd hb e,
        if_pos (Or.inr (fun hc2 => hgs g (List.mem_cons_self g gs) hc2.symm))]
      exact hread
    · exact hctx2 c h

/-! ## The accept/reject decision, and the per-claim theorems for the
validation loop -/

theorem runFold_records (spec : ToolSpec) (loose : VF) {sorted : List String}
    (hnd : sorted.Nodup) {f : String} (hf : f ∈ sorted) (hfk : f ∈ keysOf spec) :
    ∃ r, objGet (runFold spec loose sorted).validationResults f = some r := by
  obtain ⟨pre, post, hsplit⟩ := List.append_of_mem hf
  subst hsplit
  have hfpost : f ∉ post :=
    (List.nodup_cons.mp (List.nodup_append.mp hnd).2.1).1
  rw [runFold_split, foldl_stepPure_validationResults_ne spec loose _ post _ f hfpost]
  exact stepPure_records spec loose _ _ f hfk

theorem accept_reject_characterization (spec : ToolSpec) (loose : VF)
    {sorted : List String} {stF : IterState}
    (hall : ∀ f ∈ keysOf spec, f ∈ sorted)
    (hsub : ∀ f ∈ sorted, f ∈ keysOf spec)
    (hrun : validateToolInputRun spec loose = .ok (sorted, stF)) :
    (validateToolInput spec loose = .ok (.accepted stF.validFields) ↔
      ∀ f ∈ keysOf spec, ∀ r, objGet stF.validationResults f = some r →
        r.valid = true) ∧
    ((∃ f ∈ keysOf spec, ∃ r, objGet stF.validationResults f = some r ∧
        r.valid = false) →
      validateToolInput spec loose = .ok (.rejected stF.validationResults)) := by
  have hvi := validateToolInput_of_run spec loose _ _ hrun
  constructor
  · constructor
    · intro hacc
      rw [hacc] at hvi
      injection hvi with hvi2
      by_cases hcond : (sorted.all fun k =>
          !((objGet stF.validationResults k).map (·.valid) == some false)) = true
      · intro f hf r hr
        exact (allValid_iff sorted _).mp hcond f (hall f hf) r hr
      · rw [if_neg hcond] at hvi2
        exact absurd hvi2 (by simp)
    · intro hcond
      rw [hvi, if_pos ((allValid_iff sorted _).mpr
        (fun f hf r hr => hcond f (hsub f hf) r hr))]
  · rintro ⟨f, hf, r, hr, hrv⟩
    have hcond : ¬((sorted.all fun k =>
        !((objGet stF.validationResults k).map (·.valid) == some false)) = true) := by
      intro hc
      have h2 := (allValid_iff sorted _).mp hc f (hall f hf) r hr
      rw [hrv] at h2
      exact Bool.false_ne_true h2
    rw [hvi, if_neg hcond]

/-- **C1**: for a specification with distinct field names that admits an
execution order, the call result is `accepted` (carrying the final working
value set) exactly when no dynamic field's recorded outcome has
`valid := false`; otherwise it is `rejected`, carrying an outcome map that
binds every declared dynamic field — including the `valid := true` entries
of fields that passed. -/
theorem claim1_accept_iff (spec : ToolSpec) (loose : VF)
    (hknd : (keysOf spec).Nodup) {sorted : List String}
    (hs : sortFields spec = .ok sorted) :
    ∃ stF, validateToolInputRun spec loose = .ok (sorted, stF) ∧
      (∀ f ∈ keysOf spec, ∃ r, objGet stF.validationResults f = some r) ∧
      (validateToolInput spec loose = .ok (.accepted stF.validFields) ↔
        ∀ f ∈ keysOf spec, ∀ r, objGet stF.validationResults f = some r →
          r.valid = true) ∧
      ((∃ f ∈ keysOf spec, ∃ r, objGet stF.validationResults f = some r ∧
          r.valid = false) →
        validateToolInput spec loose = .ok (.rejected stF.validationResults)) := by
  obtain ⟨hnd, hsub, hall⟩ := sortFields_ok_facts spec hknd hs
  have hrun := validateToolInputRun_eq_ok spec loose hs hsub
  obtain ⟨hiff, hrej⟩ := accept_reject_characterization spec loose hall hsub hrun
  exact ⟨_, hrun, fun f hf => runFold_records spec loose hnd (hall f hf) hf,
    hiff, hrej⟩

theorem claim1_accept_iff_witness :
    ∃ stF, validateToolInputRun
        [("a", (⟨[], fun _ _ => ParamResult.okPlain⟩ : ToolFieldConfig))] [] =
      .ok (["a"], stF) ∧
      (∀ f ∈ keysOf [("a", (⟨[], fun _ _ => ParamResult.okPlain⟩ : ToolFieldConfig))],
        ∃ r, objGet stF.validationResults f = some r) ∧
      (validateToolInput
          [("a", (⟨[], fun _ _ => ParamResult.okPlain⟩ : ToolFieldConfig))] [] =
        .ok (.accepted stF.validFields) ↔
        ∀ f ∈ keysOf [("a", (⟨[], fun _ _ => ParamResult.okPlain⟩ : ToolFieldConfig))],
          ∀ r, objGet stF.validationResults f = some r → r.valid = true) ∧
      ((∃ f ∈ keysOf [("a", (⟨[], fun _ _ => ParamResult.okPlain⟩ : ToolFieldConfig))],
          ∃ r, objGet stF.validationResults f = some r ∧ r.valid = false) →
        validateToolInput
            [("a", (⟨[], fun _ _ => ParamResult.okPlain⟩ : ToolFieldConfig))] [] =
          .ok (.rejected stF.validationResults)) :=
  claim1_accept_iff [("a", (⟨[], fun _ _ => ParamResult.okPlain⟩ : ToolFieldConfig))]
    [] (by decide) rfl

/-- **C2**: when a dynamic field is reached with at least one `requires`
entry lacking a defined value in the working value set, its validator is
never invoked (the run's call trace holds no record for the field), and its
recorded outcome is `valid := false` with `requiresValidParameters` equal to
exactly the unmet subset of `requires`, in `requires` order. -/
theorem claim2_missing_requirements (spec : ToolSpec) (loose : VF)
    (hknd : (keysOf spec).Nodup) {sorted : List String}
    (pre post : List String) (f : String) {rule : ToolFieldConfig}
    (hs : sortFields spec = .ok sorted)
    (hsplit : sorted = pre ++ f :: post)
    (hrule : objGet spec f = some rule)
    (hmiss : rule.requires.filter
        (fun dep => (readDefined (runFold spec loose pre).validFields dep).isNone)
      ≠ []) :
    validateToolInputRun spec loose = .ok (sorted, runFold spec loose sorted) ∧
    objGet (runFold spec loose sorted).validationResults f =
      some (ParamResult.ofMissing (rule.requires.filter
        (fun dep =>
          (readDefined (runFold spec loose pre).validFields dep).isNone))) ∧
    ∀ c ∈ (runFold spec loose sorted).calls, c.field ≠ f := by
  obtain ⟨hnd, hsub, hall⟩ := sortFields_ok_facts spec hknd hs
  have hrun := validateToolInputRun_eq_ok spec loose hs hsub
  have hb : buildContext rule f (runFold spec loose pre).validFields
      (spec.map (·.1)) = .failure (rule.requires.filter
        (fun dep =>
          (readDefined (runFold spec loose pre).validFields dep).isNone)) := by
    rw [buildContext_eq, if_neg hmiss]
  refine ⟨hrun, (runFold_field_failure spec loose hnd hsplit hrule hb).1, ?_⟩
  subst hsplit
  have hndA := List.nodup_append.mp hnd
  have hfpre : f ∉ pre := fun hc => hndA.2.2 hc (List.mem_cons_self f post)
  have hfpost : f ∉ post := (List.nodup_cons.mp hndA.2.1).1
  rw [runFold_split]
  obtain ⟨d2, hd2, hf2⟩ := foldl_stepPure_calls spec loose (spec.map (·.1)) post
    (stepPure spec loose (spec.map (·.1)) (runFold spec loose pre) f)
  intro c hc
  rw [hd2, stepPure_eq_of_failure hrule hb] at hc
  rcases List.mem_append.mp hc with h | h
  · obtain ⟨d1, hd1, hf1⟩ :=
      foldl_stepPure_calls spec loose (spec.map (·.1)) pre (initState spec loose)
    have h2 : c ∈ (pre.foldl (stepPure spec loose (spec.map (·.1)))
        (initState spec loose)).calls := h
    rw [hd1] at h2
    have h3 : c ∈ ([] : List CallRec) ++ d1 := h2
    rw [List.nil_append] at h3
    intro hcf
    exact hfpre (hcf ▸ hf1 c h3)
  · intro hcf
    exact hfpost (hcf ▸ hf2 c h)

theorem claim2_missing_requirements_witness :
    validateToolInputRun
        [("a", (⟨[], fun _ _ =>
            (⟨false, none, none, none, none, none, none, none⟩ : ParamResult)⟩ :
          ToolFieldConfig)),
         ("b", (⟨["a"], fun _ _ => ParamResult.okPlain⟩ : ToolFieldConfig))]
        [("a", some (Value.vStr "x"))] =
      .ok (["a", "b"], runFold
        [("a", (⟨[], fun _ _ =>
            (⟨false, none, none, none, none, none, none, none⟩ : ParamResult)⟩ :
          ToolFieldConfig)),
         ("b", (⟨["a"], fun _ _ => ParamResult.okPlain⟩ : ToolFieldConfig))]
        [("a", some (Value.vStr "x"))] ["a", "b"]) ∧
    objGet (runFold
        [("a", (⟨[], fun _ _ =>
            (⟨false, none, none, none, none, none, none, none⟩ : ParamResult)⟩ :
          ToolFieldConfig)),
         ("b", (⟨["a"], fun _ _ => ParamResult.okPlain⟩ : ToolFieldConfig))]
        [("a", some (Value.vStr "x"))] ["a", "b"]).validationResults "b" =
      some (ParamResult.ofMissing ["a"]) ∧
    ∀ c ∈ (runFold
        [("a", (⟨[], fun _ _ =>
            (⟨false, none, none, none, none, none, none, none⟩ : ParamResult)⟩ :
          ToolFieldConfig)),
         ("b", (⟨["a"], fun _ _ => ParamResult.okPlain⟩ : ToolFieldConfig))]
        [("a", some (Value.vStr "x"))] ["a", "b"]).calls, c.field ≠ "b" :=
  claim2_missing_requirements
    [("a", (⟨[], fun _ _ =>
        (⟨false, none, none, none, none, none, none, none⟩ : ParamResult)⟩ :
      ToolFieldConfig)),
     ("b", (⟨["a"], fun _ _ => ParamResult.okPlain⟩ : ToolFieldConfig))]
    [("a", some (Value.vStr "x"))]
    (by decide) ["a"] [] "b" rfl rfl rfl (by decide)

/-- **C5**: for a dynamic field whose requirements are all met, the context
object handed to its validator binds exactly: each `requires` field's
current value, each other already-known dynamic field's value (the field
itself excluded), and each static field's value — and nothing else. -/
theorem claim5_context_union (rule : ToolFieldConfig) (fieldKey : String)
    (validFields : VF) (dynamicSet : List String) (ctx : Ctx)
    (hdynF : fieldKey ∈ dynamicSet)
    (hnd : (keysOf validFields).Nodup)
    (hb : buildContext rule fieldKey validFields dynamicSet = .success ctx)
    (k : String) (v : Value) :
    objGet ctx k = some v ↔
      (readDefined validFields k = some v ∧
        (k ∈ rule.requires ∨ (k ∈ dynamicSet ∧ k ≠ fieldKey) ∨ k ∉ dynamicSet)) := by
  rw [buildContext_success_get hnd hb k]
  by_cases hk : k ∈ rule.requires ∨ k ≠ fieldKey
  · rw [if_pos hk]
    constructor
    · intro hv
      refine ⟨hv, ?_⟩
      rcases hk with h | h
      · exact Or.inl h
      · by_cases hdk : k ∈ dynamicSet
        · exact Or.inr (Or.inl ⟨hdk, h⟩)
        · exact Or.inr (Or.inr hdk)
    · exact fun h => h.1
  · rw [if_neg hk]
    push_neg at hk
    constructor
    · intro h
      exact absurd h (by simp)
    · rintro ⟨_, h | h | h⟩
      · exact absurd h hk.1
      · exact absurd hk.2 h.2
      · exact absurd (show k ∈ dynamicSet from hk.2.symm ▸ hdynF) h

theorem claim5_context_union_witness :
    objGet [("r", Value.vNum 1), ("s", Value.vNum 2), ("d", Value.vNum 3)] "d" =
        some (Value.vNum 3) ↔
      (readDefined [("r", some (Value.vNum 1)), ("s", some (Value.vNum 2)),
          ("d", some (Value.vNum 3)), ("f", some (Value.vNum 4)), ("u", none)] "d" =
        some (Value.vNum 3) ∧
        ("d" ∈ ["r"] ∨ ("d" ∈ ["f", "d", "r"] ∧ "d" ≠ "f") ∨ "d" ∉ ["f", "d", "r"])) :=
  claim5_context_union (⟨["r"], fun _ _ => ParamResult.okPlain⟩ : ToolFieldConfig)
    "f"
    [("r", some (Value.vNum 1)), ("s", some (Value.vNum 2)),
      ("d", some (Value.vNum 3)), ("f", some (Value.vNum 4)), ("u", none)]
    ["f", "d", "r"] _ (by decide) (by decide) rfl "d" (Value.vNum 3)

/-- **C6**: when a validator returns an outcome whose `normalizedValue` is
deep-structurally equal to the raw input value, the recorded outcome drops
the `normalizedValue` key but keeps everything else (in particular its
`valid` flag), and — when valid — the original raw value is the one folded
into the working value set. -/
theorem claim6_noop_normalization (spec : ToolSpec) (loose : VF)
    (dynamicSet : List String) (st : IterState) (f : String)
    {rule : ToolFieldConfig} {context : Ctx} {r : ParamResult} {n : Value}
    (hrule : objGet spec f = some rule)
    (hb : buildContext rule f st.validFields dynamicSet = .success context)
    (hr : rule.validate (readDefined loose f) context = r)
    (hnv : r.normalizedValue = some n)
    (heq : readDefined loose f = some n) :
    objGet (stepPure spec loose dynamicSet st f).validationResults f =
      some { r with normalizedValue := none } ∧
    (r.valid = true →
      objGet (stepPure spec loose dynamicSet st f).validFields f =
        some (readDefined loose f)) := by
  have heq2 : readDefined loose f = r.normalizedValue := by rw [hnv, heq]
  have h1 : (processValidationResult (readDefined loose f) r).1 =
      { r with normalizedValue := none } := by
    rw [processValidationResult_of_eq heq2]
  have h2 : (processValidationResult (readDefined loose f) r).2 =
      if r.valid then some (readDefined loose f) else none := by
    rw [processValidationResult_of_eq heq2]
  rw [stepPure_eq_of_success hrule hb, hr]
  constructor
  · rw [h1]
    exact objGet_objSet_self _ _ _
  · intro hv
    rw [h2, if_pos hv]
    exact objGet_objSet_self _ _ _

theorem claim6_noop_normalization_witness :
    objGet (stepPure
        [("a", (⟨[], fun v _ => { ParamResult.okPlain with normalizedValue := v }⟩ :
          ToolFieldConfig))]
        [("a", some (Value.vObj [("x", Value.vArr [Value.vNum 1, Value.vStr "y"])]))]
        ["a"] (initState
          [("a", (⟨[], fun v _ => { ParamResult.okPlain with normalizedValue := v }⟩ :
            ToolFieldConfig))]
          [("a", some (Value.vObj [("x", Value.vArr [Value.vNum 1, Value.vStr "y"])]))])
        "a").validationResults "a" =
      some ParamResult.okPlain ∧
    objGet (stepPure
        [("a", (⟨[], fun v _ => { ParamResult.okPlain with normalizedValue := v }⟩ :
          ToolFieldConfig))]
        [("a", some (Value.vObj [("x", Value.vArr [Value.vNum 1, Value.vStr "y"])]))]
        ["a"] (initState
          [("a", (⟨[], fun v _ => { ParamResult.okPlain with normalizedValue := v }⟩ :
            ToolFieldConfig))]
          [("a", some (Value.vObj [("x", Value.vArr [Value.vNum 1, Value.vStr "y"])]))])
        "a").validFields "a" =
      some (some (Value.vObj [("x", Value.vArr [Value.vNum 1, Value.vStr "y"])])) :=
  ⟨(claim6_noop_normalization
      [("a", (⟨[], fun v _ => { ParamResult.okPlain with normalizedValue := v }⟩ :
        ToolFieldConfig))]
      [("a", some (Value.vObj [("x", Value.vArr [Value.vNum 1, Value.vStr "y"])]))]
      ["a"]
      (initState
        [("a", (⟨[], fun v _ => { ParamResult.okPlain with normalizedValue := v }⟩ :
        ToolFieldConfig))]
        [("a", some (Value.vObj [("x", Value.vArr [Value.vNum 1, Value.vStr "y"])]))])
      "a" rfl rfl rfl rfl rfl).1,
   (claim6_noop_normalization
      [("a", (⟨[], fun v _ => { ParamResult.okPlain with normalizedValue := v }⟩ :
        ToolFieldConfig))]
      [("a", some (Value.vObj [("x", Value.vArr [Value.vNum 1, Value.vStr "y"])]))]
      ["a"]
      (initState
        [("a", (⟨[], fun v _ => { ParamResult.okPlain with normalizedValue := v }⟩ :
        ToolFieldConfig))]
        [("a", some (Value.vObj [("x", Value.vArr [Value.vNum 1, Value.vStr "y"])]))])
      "a" rfl rfl rfl rfl rfl).2 rfl⟩

set_option maxHeartbeats 1000000 in
theorem accepted_value_static (spec : ToolSpec) (loose : VF)
    (hknd : (keysOf spec).Nodup) (hlnd : (keysOf loose).Nodup)
    {V : VF} (hacc : validateToolInput spec loose = .ok (.accepted V))
    {k : String} (hk : k ∉ keysOf spec) {v : Value}
    (hv : readDefined loose k = some v) :
    objGet V k = some (some v) := by
  obtain ⟨sorted, hs, hnd, hsub, hall, hrun, hres⟩ :=
    validateToolInput_inv spec loose hknd hacc
  have hres2 : ToolCallValidationResult.accepted V =
      (if (sorted.all fun q =>
          !((objGet ((runFold spec loose sorted).validationResults) q).map (·.valid)
            == some false)) then
        ToolCallValidationResult.accepted (runFold spec loose sorted).validFields
      else .rejected (runFold spec loose sorted).validationResults) := hres
  by_cases hcond : ((sorted.all fun q =>
      !((objGet ((runFold spec loose sorted).validationResults) q).map (·.valid)
        == some false)) = true)
  · rw [if_pos hcond] at hres2
    injection hres2 with hV
    rw [hV]
    have hknot : k ∉ sorted := fun hc => hk (hsub k hc)
    have h3 := foldl_stepPure_validFields_ne spec loose (spec.map (·.1)) sorted
      (initState spec loose) k hknot
    rw [show runFold spec loose sorted = sorted.foldl
        (stepPure spec loose (spec.map (·.1))) (initState spec loose) from rfl, h3]
    show objGet (initializeStaticFields loose (spec.map (·.1))) k = some (some v)
    rw [initializeStaticFields_get loose _ hlnd k,
      if_neg (show ¬(k ∈ spec.map fun x => x.1) from hk), hv]
    rfl
  · rw [if_neg hcond] at hres2
    exact absurd hres2 (by simp)

/-- **C8**: when an earlier dynamic field passed validation with a genuine
normalization (a `normalizedValue` not deep-equal to its raw input), every
validator invocation of a later field receives a context binding the
earlier field to the normalized value, not the raw one. -/
theorem claim8_normalized_propagation (spec : ToolSpec) (loose : VF)
    (hknd : (keysOf spec).Nodup) {sorted : List String}
    (pre mid post : List String) (e f : String)
    {ruleE : ToolFieldConfig} {ctxE : Ctx} (n : Value)
    (hs : sortFields spec = .ok sorted)
    (hsplit : sorted = pre ++ e :: (mid ++ f :: post))
    (hruleE : objGet spec e = some ruleE)
    (hctxE : buildContext ruleE e (runFold spec loose pre).validFields
      (spec.map (·.1)) = .success ctxE)
    (hvalid : (ruleE.validate (readDefined loose e) ctxE).valid = true)
    (hnorm : (ruleE.validate (readDefined loose e) ctxE).normalizedValue = some n)
    (hne : readDefined loose e ≠ some n) :
    ∀ c ∈ (runFold spec loose sorted).calls, c.field = f →
      objGet c.context e = some n := by
  obtain ⟨hnd, hsub, hall⟩ := sortFields_ok_facts spec hknd hs
  subst hsplit
  have hndA := List.nodup_append.mp hnd
  have hndC := List.nodup_cons.mp hndA.2.1
  have hgs : ∀ g ∈ mid ++ f :: post, g ≠ e := fun g hg hge => hndC.1 (hge ▸ hg)
  have hef : e ≠ f := fun hc => hndC.1 (by
    rw [hc]
    exact List.mem_append_right mid (List.mem_cons_self f post))
  have hfpre : f ∉ pre := fun hc => hndA.2.2 hc
    (List.mem_cons_of_mem e (List.mem_append_right mid (List.mem_cons_self f post)))
  have hcond : ¬(readDefined loose e =
      (ruleE.validate (readDefined loose e) ctxE).normalizedValue) := by
    rw [hnorm]
    exact hne
  have h2 : (processValidationResult (readDefined loose e)
      (ruleE.validate (readDefined loose e) ctxE)).2 = some (some n) := by
    rw [processValidationResult_of_ne hcond, if_pos hvalid, hnorm]
  have hvf : (stepPure spec loose (spec.map (·.1))
      (runFold spec loose pre) e).validFields =
      objSet (runFold spec loose pre).validFields e (some n) := by
    rw [stepPure_eq_of_success hruleE hctxE, h2]
  have hread : readDefined (stepPure spec loose (spec.map (·.1))
      (runFold spec loose pre) e).validFields e = some n := by
    rw [hvf]
    exact (readDefined_eq_some_iff _ e n).mpr (objGet_objSet_self _ _ _)
  have hndInit : (keysOf (initState spec loose).validFields).Nodup :=
    initializeStaticFields_nodup loose (spec.map Prod.fst)
  have hndPre : (keysOf (runFold spec loose pre).validFields).Nodup :=
    foldl_stepPure_validFields_nodup spec loose (spec.map Prod.fst) pre
      (initState spec loose) hndInit
  have hndvf : (keysOf (stepPure spec loose (spec.map (·.1))
      (runFold spec loose pre) e).validFields).Nodup :=
    stepPure_validFields_nodup _ _ _ _ _ hndPre
  rw [runFold_split]
  obtain ⟨d, hd, hctx⟩ := foldl_stepPure_context_binds spec loose _
    e n (mid ++ f :: post) _ hgs hread hndvf
  intro c hc hcf
  rw [hd] at hc
  rcases List.mem_append.mp hc with h | h
  · obtain ⟨d1, hd1, hf1⟩ := stepPure_calls_spec spec loose (spec.map (·.1))
      (runFold spec loose pre) e
    rw [hd1] at h
    rcases List.mem_append.mp h with h2 | h2
    · obtain ⟨d0, hd0, hf0⟩ := foldl_stepPure_calls spec loose (spec.map (·.1)) pre
        (initState spec loose)
      have h3 : c ∈ (pre.foldl (stepPure spec loose (spec.map (·.1)))
          (initState spec loose)).calls := h2
      rw [hd0] at h3
      have h4 : c ∈ ([] : List CallRec) ++ d0 := h3
      rw [List.nil_append] at h4
      exact absurd (hcf ▸ hf0 c h4) hfpre
    · exact absurd ((hf1 c h2).1.symm.trans hcf) hef
  · exact hctx c h

theorem claim8_normalized_propagation_witness :
    objGet [("a", Value.vNum 2)] "a" = some (Value.vNum 2) :=
  claim8_normalized_propagation
    [("a", (⟨[], fun _ _ => ParamResult.okNorm (Value.vNum 2)⟩ : ToolFieldConfig)),
     ("b", (⟨["a"], fun _ _ => ParamResult.okPlain⟩ : ToolFieldConfig))]
    [("a", some (Value.vNum 1))]
    (by decide) [] [] [] "a" "b" (Value.vNum 2) rfl rfl rfl rfl rfl rfl (by decide)
    ⟨"b", none, [("a", Value.vNum 2)], ParamResult.okPlain⟩ (by decide) rfl

/-- **C9**: an accepted call carries the full resolved value set: every
static input field with a defined value is bound in the accepted value, and
every declared dynamic field is bound — to the validator's normalized value
if one was recorded, otherwise to the raw input value — with every recorded
outcome `valid := true`. -/
theorem claim9_accepted_completeness (spec : ToolSpec) (loose : VF)
    (hknd : (keysOf spec).Nodup) (hlnd : (keysOf loose).Nodup)
    {V : VF} (hacc : validateToolInput spec loose = .ok (.accepted V)) :
    (∀ k v, k ∉ keysOf spec → readDefined loose k = some v →
      objGet V k = some (some v)) ∧
    ∃ sorted stF, validateToolInputRun spec loose = .ok (sorted, stF) ∧
      V = stF.validFields ∧
      ∀ f ∈ keysOf spec, ∃ r, objGet stF.validationResults f = some r ∧
        r.valid = true ∧
        objGet V f = some (match r.normalizedValue with
          | some nv => some nv
          | none => readDefined loose f) := by
  refine ⟨fun k v hk hv => accepted_value_static spec loose hknd hlnd hacc hk hv, ?_⟩
  obtain ⟨sorted, hs, hnd, hsub, hall, hrun, hres⟩ :=
    validateToolInput_inv spec loose hknd hacc
  have hres2 : ToolCallValidationResult.accepted V =
      (if (sorted.all fun q =>
          !((objGet ((runFold spec loose sorted).validationResults) q).map (·.valid)
            == some false)) then
        ToolCallValidationResult.accepted (runFold spec loose sorted).validFields
      else .rejected (runFold spec loose sorted).validationResults) := hres
  by_cases hcond : ((sorted.all fun q =>
      !((objGet ((runFold spec loose sorted).validationResults) q).map (·.valid)
        == some false)) = true)
  · rw [if_pos hcond] at hres2
    injection hres2 with hV
    refine ⟨sorted, runFold spec loose sorted, hrun, hV, ?_⟩
    intro f hf
    have hfs := hall f hf
    obtain ⟨pre, post, hsplit⟩ := List.append_of_mem hfs
    have hrule : ∃ rule, objGet spec f = some rule := by
      have h4 := (objGet_isSome_iff spec f).mpr hf
      cases hg : objGet spec f
      · rw [hg] at h4
        simp at h4
      · exact ⟨_, rfl⟩
    obtain ⟨rule, hrule⟩ := hrule
    cases hb : buildContext rule f (runFold spec loose pre).validFields
        (spec.map (·.1)) with
    | failure missing =>
      have h5 := (runFold_field_failure spec loose hnd hsplit hrule hb).1
      have h6 := (allValid_iff sorted _).mp hcond f hfs _ h5
      exact absurd h6 (by simp [ParamResult.ofMissing])
    | success ctx =>
      obtain ⟨h5, h6⟩ := runFold_field_success spec loose hnd hsplit hrule hb
      have hvalid := (allValid_iff sorted _).mp hcond f hfs _ h5
      refine ⟨_, h5, hvalid, ?_⟩
      rw [hV, h6, processValidationResult_snd_of_valid _ _ hvalid]
  · rw [if_neg hcond] at hres2
    exact absurd hres2 (by simp)

theorem claim9_accepted_completeness_witness :
    (∀ k v, k ∉ keysOf [("a", (⟨[], fun _ _ =>
          { ParamResult.okPlain with normalizedValue := some (Value.vNum 7) }⟩ :
        ToolFieldConfig))] →
      readDefined [("a", some (Value.vNum 1)), ("extra", some (Value.vStr "s"))]
        k = some v →
      objGet [("extra", some (Value.vStr "s")), ("a", some (Value.vNum 7))] k =
        some (some v)) ∧
    ∃ sorted stF, validateToolInputRun
        [("a", (⟨[], fun _ _ =>
            { ParamResult.okPlain with normalizedValue := some (Value.vNum 7) }⟩ :
          ToolFieldConfig))]
        [("a", some (Value.vNum 1)), ("extra", some (Value.vStr "s"))] =
      .ok (sorted, stF) ∧
      [("extra", some (Value.vStr "s")), ("a", some (Value.vNum 7))] =
        stF.validFields ∧
      ∀ f ∈ keysOf [("a", (⟨[], fun _ _ =>
          { ParamResult.okPlain with normalizedValue := some (Value.vNum 7) }⟩ :
        ToolFieldConfig))],
        ∃ r, objGet stF.validationResults f = some r ∧ r.valid = true ∧
          objGet [("extra", some (Value.vStr "s")), ("a", some (Value.vNum 7))] f =
            some (match r.normalizedValue with
              | some nv => some nv
              | none => readDefined
                  [("a", some (Value.vNum 1)), ("extra", some (Value.vStr "s"))] f) :=
  claim9_accepted_completeness
    [("a", (⟨[], fun _ _ =>
        { ParamResult.okPlain with normalizedValue := some (Value.vNum 7) }⟩ :
      ToolFieldConfig))]
    [("a", some (Value.vNum 1)), ("extra", some (Value.vStr "s"))]
    (by decide) (by decide) rfl

/-- **C10**: input keys outside the declared dynamic-field set — including
entirely undeclared keys — are, when defined, seeded verbatim into the
working value set before validation, appear as static bindings in the
context of every validator invocation of the run, and are returned
unchanged in an accepted result's value; an input key bound to `undefined`
is not seeded. -/
theorem claim10_static_passthrough (spec : ToolSpec) (loose : VF)
    (hknd : (keysOf spec).Nodup) (hlnd : (keysOf loose).Nodup)
    (k : String) (hk : k ∉ keysOf spec) :
    (readDefined loose k = none →
      objGet (initializeStaticFields loose (spec.map (·.1))) k = none) ∧
    ∀ v, readDefined loose k = some v →
      objGet (initializeStaticFields loose (spec.map (·.1))) k = some (some v) ∧
      (∀ sorted stF, validateToolInputRun spec loose = .ok (sorted, stF) →
        ∀ c ∈ stF.calls, objGet c.context k = some v) ∧
      ∀ V, validateToolInput spec loose = .ok (.accepted V) →
        objGet V k = some (some v) := by
  constructor
  · intro hv
    rw [initializeStaticFields_get loose _ hlnd k,
      if_neg (show ¬(k ∈ spec.map fun x => x.1) from hk), hv]
    rfl
  · intro v hv
    refine ⟨?_, ?_, ?_⟩
    · rw [initializeStaticFields_get loose _ hlnd k,
      if_neg (show ¬(k ∈ spec.map fun x => x.1) from hk), hv]
      rfl
    · intro sorted stF hrun c hc
      obtain ⟨hs, hstF, hnd, hsub, hall⟩ :=
        validateToolInputRun_ok_inv spec loose hknd hrun
      subst hstF
      have hgs : ∀ g ∈ sorted, g ≠ k := fun g hg hgk => hk (hgk ▸ hsub g hg)
      have hread : readDefined (initState spec loose).validFields k = some v := by
        refine (readDefined_eq_some_iff _ k v).mpr ?_
        show objGet (initializeStaticFields loose (spec.map (·.1))) k = some (some v)
        rw [initializeStaticFields_get loose _ hlnd k,
      if_neg (show ¬(k ∈ spec.map fun x => x.1) from hk), hv]
        rfl
      have hndInit : (keysOf (initState spec loose).validFields).Nodup :=
        initializeStaticFields_nodup loose (spec.map Prod.fst)
      obtain ⟨d, hd, hctx⟩ := foldl_stepPure_context_binds spec loose (spec.map (·.1))
        k v sorted (initState spec loose) hgs hread hndInit
      have hc1 : c ∈ (sorted.foldl (stepPure spec loose (spec.map (·.1)))
          (initState spec loose)).calls := hc
      rw [hd] at hc1
      have hc2 : c ∈ ([] : List CallRec) ++ d := hc1
      rw [List.nil_append] at hc2
      exact hctx c hc2
    · intro V hacc
      exact accepted_value_static spec loose hknd hlnd hacc hk hv

theorem claim10_static_passthrough_witness :
    (objGet (initializeStaticFields
        [("z", some (Value.vBool true)), ("u", none), ("a", some (Value.vNum 1))]
        ["a"]) "z" = some (some (Value.vBool true))) ∧
    (objGet (initializeStaticFields
        [("z", some (Value.vBool true)), ("u", none), ("a", some (Value.vNum 1))]
        ["a"]) "u" = none) ∧
    objGet [("z", Value.vBool true)] "z" = some (Value.vBool true) ∧
    objGet [("z", some (Value.vBool true)), ("a", some (Value.vNum 1))] "z" =
      some (some (Value.vBool true)) :=
  ⟨((claim10_static_passthrough
      [("a", (⟨[], fun _ _ => ParamResult.okPlain⟩ : ToolFieldConfig))]
      [("z", some (Value.vBool true)), ("u", none), ("a", some (Value.vNum 1))]
      (by decide) (by decide) "z" (by decide)).2 (Value.vBool true) rfl).1,
   (claim10_static_passthrough
      [("a", (⟨[], fun _ _ => ParamResult.okPlain⟩ : ToolFieldConfig))]
      [("z", some (Value.vBool true)), ("u", none), ("a", some (Value.vNum 1))]
      (by decide) (by decide) "u" (by decide)).1 rfl,
   ((claim10_static_passthrough
      [("a", (⟨[], fun _ _ => ParamResult.okPlain⟩ : ToolFieldConfig))]
      [("z", some (Value.vBool true)), ("u", none), ("a", some (Value.vNum 1))]
      (by decide) (by decide) "z" (by decide)).2 (Value.vBool true) rfl).2.1
     ["a"]
     (runFold [("a", (⟨[], fun _ _ => ParamResult.okPlain⟩ : ToolFieldConfig))]
        [("z", some (Value.vBool true)), ("u", none), ("a", some (Value.vNum 1))]
        ["a"])
     rfl
     ⟨"a", some (Value.vNum 1), [("z", Value.vBool true)], ParamResult.okPlain⟩
     (by decide),
   ((claim10_static_passthrough
      [("a", (⟨[], fun _ _ => ParamResult.okPlain⟩ : ToolFieldConfig))]
      [("z", some (Value.vBool true)), ("u", none), ("a", some (Value.vNum 1))]
      (by decide) (by decide) "z" (by decide)).2 (Value.vBool true) rfl).2.2
     [("z", some (Value.vBool true)), ("a", some (Value.vNum 1))] rfl⟩

end Tool2Agent
